import Mathlib

/-!
Entry-point discovery and image-mapping resolution (`cmd/generate/generate.go`).

A shallow embedding of the pure parts of the generator: the include/exclude
path filter of the discovery walk, the name derivation helpers
(`appFilename`, `dashcase`, `capitalize`, `cmdSubPath`), the program identity
written to the image mapping, the additive merge of image mappings fetched
from sibling repositories, and the choice of the `oc` binary name
(`getOCBinaryName`).

Go strings are modelled as lists of characters (`Str`); the paths and keys
handled here are valid UTF-8 and every byte that the code inspects (`/`, `_`,
`-`, `.`) is ASCII, so positions of runes and of bytes agree on them.
External collaborators (the compiled regular expressions, the HTTP transport,
the YAML decoder, the Unicode case tables) are parameters of the model.
-/

namespace Generate

/-- A Go string, as the list of its characters. -/
abbrev Str := List Char

/-! ## `strings` -/

/-- Model of `strings.HasPrefix(s, pre)`. -/
def hasPrefix (s pre : Str) : Bool := pre.isPrefixOf s

/-- Model of `strings.HasSuffix(s, suf)`. -/
def hasSuffix (s suf : Str) : Bool := suf.isSuffixOf s

/-- Model of `strings.TrimPrefix(s, pre)`: `s` without the leading `pre`, or `s` itself. -/
def trimPrefix (s pre : Str) : Str :=
  if hasPrefix s pre then s.drop pre.length else s

/-- Model of `strings.Contains(s, sub)`. -/
def contains : Str → Str → Bool
  | [], sub => sub.isEmpty
  | c :: cs, sub => sub.isPrefixOf (c :: cs) || contains cs sub

/-- Model of `strings.Join(elems, sep)`. -/
def stringsJoin : List Str → Str → Str
  | [], _ => []
  | [e], _ => e
  | e :: es, sep => e ++ sep ++ stringsJoin es sep

/-- Model of `strings.Split(s, "/")`: the segments of `s` between separators. -/
def splitSep : Str → List Str
  | [] => [[]]
  | c :: cs =>
    if c = '/' then [] :: splitSep cs
    else match splitSep cs with
      | [] => [[c]]
      | seg :: segs => (c :: seg) :: segs

/-- The scan of `strings.Replace` for a non-empty `old`: `k` replacements are
still allowed and `skip` characters of a match just replaced remain to be
passed over. -/
def replaceScan (old new : Str) : Nat → Nat → Str → Str
  | _, _, [] => []
  | k, skip + 1, _ :: cs => replaceScan old new k skip cs
  | 0, 0, c :: cs => c :: cs
  | k + 1, 0, c :: cs =>
    if old.isPrefixOf (c :: cs) then new ++ replaceScan old new k (old.length - 1) cs
    else c :: replaceScan old new (k + 1) 0 cs

/-- The scan of `strings.Replace` for the empty `old`, which matches at the
start of the string and after every character. -/
def replaceEmpty (new : Str) : Nat → Str → Str
  | 0, s => s
  | _ + 1, [] => new
  | k + 1, c :: cs => new ++ c :: replaceEmpty new k cs

/-- Model of `strings.Replace(s, old, new, n)`: `s` with the first `n` non-overlapping
instances of `old` replaced by `new`, all of them when `n < 0`. -/
def Replace (s old new : Str) (n : Int) : Str :=
  if old = new ∨ n = 0 then s
  else
    let k := if n < 0 then s.length + 1 else n.toNat
    if old = [] then replaceEmpty new k s else replaceScan old new k 0 s

/-- Model of `strings.ReplaceAll(s, old, new)`. -/
def ReplaceAll (s old new : Str) : Str := Replace s old new (-1)

/-- The search of `strings.Cut`: the text before and after the first instance
of `sep`, when there is one. -/
def cutScan (sep : Str) : Str → Option (Str × Str)
  | [] => if sep = [] then some ([], []) else none
  | c :: cs =>
    if sep.isPrefixOf (c :: cs) then some ([], (c :: cs).drop sep.length)
    else (cutScan sep cs).map (fun ba => (c :: ba.1, ba.2))

/-- Model of `strings.Cut(s, sep)`: `(before, after, found)`, and `(s, "", false)` when
`sep` does not occur in `s`. -/
def Cut (s sep : Str) : Str × Str × Bool :=
  match cutScan sep s with
  | some (before, after) => (before, after, true)
  | none => (s, [], false)

/-! ## `unicode` -/

/-- The Unicode tables the `strings` functions consult for characters above
`unicode.MaxASCII`; on ASCII the Go functions do not look at them. -/
structure UnicodeTables where
  lower : Char → Char
  title : Char → Char
  isLetter : Char → Bool
  isDigit : Char → Bool
  isSpace : Char → Bool

/-- Model of `unicode.ToLower(r)`. -/
def unicodeToLower (U : UnicodeTables) (r : Char) : Char :=
  if r.toNat ≤ 127 then
    (if 'A'.toNat ≤ r.toNat ∧ r.toNat ≤ 'Z'.toNat then Char.ofNat (r.toNat + 32) else r)
  else U.lower r

/-- Model of `unicode.ToTitle(r)`. -/
def unicodeToTitle (U : UnicodeTables) (r : Char) : Char :=
  if r.toNat ≤ 127 then
    (if 'a'.toNat ≤ r.toNat ∧ r.toNat ≤ 'z'.toNat then Char.ofNat (r.toNat - 32) else r)
  else U.title r

/-- Model of `strings.ToLower(s)`. -/
def ToLower (U : UnicodeTables) (s : Str) : Str := s.map (unicodeToLower U)

/-- Model of `isSeparator(r)` of package `strings`: ASCII alphanumerics and underscore
are not separators, every other ASCII character is; above ASCII, letters and
digits are not separators and spaces are. -/
def isSeparator (U : UnicodeTables) (r : Char) : Bool :=
  if r.toNat ≤ 127 then
    if '0'.toNat ≤ r.toNat ∧ r.toNat ≤ '9'.toNat then false
    else if 'a'.toNat ≤ r.toNat ∧ r.toNat ≤ 'z'.toNat then false
    else if 'A'.toNat ≤ r.toNat ∧ r.toNat ≤ 'Z'.toNat then false
    else if r = '_' then false
    else true
  else if U.isLetter r || U.isDigit r then false
  else U.isSpace r

/-- The mapping closure of `strings.Title`, with `prev` the character before. -/
def titleScan (U : UnicodeTables) : Char → Str → Str
  | _, [] => []
  | prev, r :: rs =>
    (if isSeparator U prev then unicodeToTitle U r else r) :: titleScan U r rs

/-- Model of `strings.Title(s)`: every character that begins a word mapped to title case. -/
def Title (U : UnicodeTables) (s : Str) : Str := titleScan U ' ' s

/-- Tables that leave every character above ASCII alone and class none of them:
enough to run the functions on ASCII text. -/
def asciiOnly : UnicodeTables where
  lower := id
  title := id
  isLetter := fun _ => false
  isDigit := fun _ => false
  isSpace := fun _ => false

/-! ## `path/filepath` (Unix) -/

/-- One step of `filepath.Clean` over the segments of a path; `stack` holds the
segments kept so far, the last one first. Empty and `.` segments are dropped;
`..` removes the segment before it when there is one that is not itself `..`,
is dropped at the root of a rooted path, and is kept otherwise. -/
def cleanStep (rooted : Bool) (stack : List Str) (seg : Str) : List Str :=
  if seg = [] ∨ seg = ['.'] then stack
  else if seg = ['.', '.'] then
    match stack with
    | [] => if rooted then [] else [seg]
    | top :: rest => if top = ['.', '.'] then seg :: stack else rest
  else seg :: stack

/-- Model of `filepath.Clean(path)`: the shortest path name equivalent to `path` by
purely lexical processing. -/
def Clean (path : Str) : Str :=
  let rooted := path.head? = some '/'
  let body := stringsJoin ((splitSep path).foldl (cleanStep rooted) []).reverse ['/']
  if rooted then '/' :: body
  else if body = [] then ['.'] else body

/-- Model of `filepath.Join(elem...)`: the elements from the first non-empty one on,
joined with the separator and cleaned; the empty string when all are empty. -/
def Join : List Str → Str
  | [] => []
  | e :: es => if e = [] then Join es else Clean (stringsJoin (e :: es) ['/'])

/-- Model of `filepath.Dir(path)`: all but the last element of `path`, cleaned. -/
def Dir (path : Str) : Str :=
  Clean (path.rdropWhile (fun c => c != '/'))

/-- Model of `filepath.Base(path)`: the last element of `path`, trailing separators
removed first; `.` for the empty path and `/` for a path of separators only. -/
def Base (path : Str) : Str :=
  if path = [] then ['.']
  else
    let last := (path.rdropWhile (fun c => c == '/')).rtakeWhile (fun c => c != '/')
    if last = [] then ['/'] else last

/-! ## The path filter and the discovery walk (`main`) -/

/-- The include/exclude decision of the walk callback (`include` at the point
of `if !include`). `matchString r path` is `r.MatchString(path)` for a compiled
pattern `r`. -/
def pathFilter {ρ : Type} (matchString : ρ → Str → Bool)
    (includesRegex excludesRegex : List ρ) (path : Str) : Bool :=
  let included :=
    if includesRegex.length > 0 then includesRegex.any (fun r => matchString r path)
    else true
  if excludesRegex.any (fun r => matchString r path) then false else included

/-- What the walk callback learns about a visited path from `fs.FileInfo`. -/
structure FileInfo where
  IsDir : Bool
  Name : Str

/-- The path the callback works with: `filepath.Join(".", strings.TrimPrefix(path, rootDir))`. -/
def relPath (rootDir path : Str) : Str :=
  Join [['.'], trimPrefix path rootDir]

/-- The callback given to `filepath.Walk`, as a function from the set of main
package paths collected so far to the set after the visit, or the error that
aborts the walk. `packageClause p` stands for `os.ReadFile(p)` followed by
`parser.ParseFile(..., parser.PackageClauseOnly)`: the package name of the file,
or the error of either call. -/
def walkFn {ρ : Type} (matchString : ρ → Str → Bool) (includesRegex excludesRegex : List ρ)
    (rootDir : Str) (packageClause : Str → Except String Str)
    (mainPackagesPaths : List Str) (path : Str) (info : FileInfo) : Except String (List Str) :=
  if info.IsDir || !hasSuffix info.Name ".go".toList then .ok mainPackagesPaths
  else
    let path := relPath rootDir path
    if !pathFilter matchString includesRegex excludesRegex path then .ok mainPackagesPaths
    else
      match packageClause path with
      | .error e => .error e
      | .ok name =>
        if name ≠ "main".toList then .ok mainPackagesPaths
        else .ok (mainPackagesPaths.insert (Dir path))

/-- The walk `filepath.Walk(rootDir, ...)` over the paths it visits, in the order
of the visits: the callback runs on each, and its first error ends the walk. -/
def walkFiles {ρ : Type} (matchString : ρ → Str → Bool) (includesRegex excludesRegex : List ρ)
    (rootDir : Str) (packageClause : Str → Except String Str) :
    List Str → List (Str × FileInfo) → Except String (List Str)
  | mainPackagesPaths, [] => .ok mainPackagesPaths
  | mainPackagesPaths, (path, info) :: rest =>
    match walkFn matchString includesRegex excludesRegex rootDir packageClause
        mainPackagesPaths path info with
    | .error e => .error e
    | .ok paths =>
      walkFiles matchString includesRegex excludesRegex rootDir packageClause paths rest

/-- A compiled pattern without metacharacters matches a path exactly when the
path contains the pattern's text. -/
def literalMatch (r : Str) (path : Str) : Bool := contains path r

/-! ## Name derivation -/

/-- The constant `defaultAppFilename`. -/
def defaultAppFilename : Str := "main".toList

/-- The function `appFilename`. -/
def appFilename (importpath : Str) : Str :=
  let base := Base importpath
  if base = ['.'] ∨ base = ['/'] then defaultAppFilename
  else base

/-- The function `cmdSubPath`. -/
def cmdSubPath (path : Str) : Str :=
  match Cut path "cmd/".toList with
  | (_, dir, true) => dir
  | (_, _, false) => path

/-- The function `dashcase`. -/
def dashcase (U : UnicodeTables) (path : Str) : Str :=
  let dir := cmdSubPath path
  let dir := ReplaceAll dir ['/'] ['-']
  let dir := ReplaceAll dir ['_'] ['-']
  ToLower U dir

/-- The function `capitalize`. -/
def capitalize (U : UnicodeTables) (path : Str) : Str :=
  let dir := cmdSubPath path
  let dir := ReplaceAll dir ['/'] [' ']
  let dir := ReplaceAll dir ['_'] [' ']
  let dir := ReplaceAll dir ['-'] [' ']
  Title U (ToLower U dir)

/-! ## Program identity (`main`) -/

/-- The key under which `main` records the image of the main package at path
`p`, for the module path `modulePath` of `go.mod`. -/
def programIdentity (modulePath p : Str) : Str :=
  if hasPrefix p "vendor/".toList then Replace p "vendor/".toList [] 1
  else Join [modulePath, p]

/-- An entry-point path as the walk records it, `filepath.Dir` of a cleaned
relative file path: either `.` or names joined by `/`, none of them empty,
`.` or `..`. -/
def isEntryPointPath (p : Str) : Bool :=
  p = ['.'] || (splitSep p).all (fun seg => seg ≠ [] ∧ seg ≠ ['.'] ∧ seg ≠ ['.', '.'])

/-! ## Images of sibling repositories -/

/-- A Go `map[string]string`, as its entries in the order a `range` visits them. -/
abbrev Mapping := List (Str × Str)

/-- The lookup `m[k]`, with `none` for an absent key. -/
def mapGet (m : Mapping) (k : Str) : Option Str := m.lookup k

/-- The assignment `m[k] = v`. -/
def mapSet : Mapping → Str → Str → Mapping
  | [], k, v => [(k, v)]
  | (k', v') :: rest, k, v =>
    if k' = k then (k, v) :: rest else (k', v') :: mapSet rest k v

/-- The fields of `project.Metadata` that the generator reads. -/
structure ProjectInfo where
  ImagePrefix : Str
  Tag : Str
  Version : Str

/-- The minimum OCP version of `project.Metadata`. -/
structure OcpVersionRange where
  Min : Str

/-- The requirements of `project.Metadata`. -/
structure Requirements where
  OcpVersion : OcpVersionRange

/-- The type `project.Metadata`. -/
structure Metadata where
  Project : ProjectInfo
  Requirements : Requirements

/-- An HTTP response: its status code and what `io.ReadAll` makes of its body. -/
structure Response where
  StatusCode : Int
  Body : Except String Str

/-- The collaborators of `downloadImagesFrom`: `fmt.Sprintf` on a URL format with
two arguments, `http.Get`, and `yaml.Unmarshal` into a fresh map. -/
structure Net where
  Sprintf : Str → Str → Str → Str
  Get : Str → Except String Response
  Unmarshal : Str → Except String Mapping

/-- The errors `downloadImagesFrom` returns, one for each `fmt.Errorf`. -/
inductive FetchError where
  | get (r url : Str) (err : String)
  | status (r url : Str) (code : Int)
  | read (err : String)
  | yaml (r url : Str) (err : String)
  deriving DecidableEq

/-- The function `downloadImagesFrom`. -/
def downloadImagesFrom (net : Net) (r branch urlFmt : Str) : Except FetchError Mapping :=
  let url := net.Sprintf urlFmt r branch
  match net.Get url with
  | .error err => .error (.get r url err)
  | .ok response =>
    if response.StatusCode > 400 then .error (.status r url response.StatusCode)
    else
      match response.Body with
      | .error err => .error (.read err)
      | .ok content =>
        match net.Unmarshal content with
        | .error err => .error (.yaml r url err)
        | .ok images => .ok images

/-- The inner loop of `getAdditionalImagesFromMatchingRepositories`: the entries
of `images` in the order `range` yields them, each added only when its key is
not present. -/
def mergeImages : Mapping → List (Str × Str) → Mapping
  | mapping, [] => mapping
  | mapping, (k, v) :: rest =>
    if (mapGet mapping k).isNone then mergeImages (mapSet mapping k v) rest
    else mergeImages mapping rest

/-- The outer loop of `getAdditionalImagesFromMatchingRepositories`: the map
as the loop leaves it and the error returned, if any. -/
def mergeRepositories (net : Net) (branch urlFmt : Str) :
    Mapping → List Str → Mapping × Option FetchError
  | mapping, [] => (mapping, none)
  | mapping, r :: rs =>
    match downloadImagesFrom net r branch urlFmt with
    | .error err => (mapping, some err)
    | .ok images => mergeRepositories net branch urlFmt (mergeImages mapping images) rs

/-- The function `getAdditionalImagesFromMatchingRepositories`; the first
component is the state of the argument `mapping` on return. -/
def getAdditionalImagesFromMatchingRepositories (net : Net) (repositories : List Str)
    (metadata : Metadata) (urlFmt : Str) (mapping : Mapping) : Mapping × Option FetchError :=
  let branch := Replace metadata.Project.Tag "knative".toList "release".toList 1
  let branch := Replace branch "nightly".toList "next".toList 1
  mergeRepositories net branch urlFmt mapping repositories

/-! ## The name of the `oc` binary -/

/-- The pieces of `strings.SplitN` for a non-empty separator, with at most
`k` cuts still to make. -/
def splitScan (sep : Str) : Nat → Str → List Str
  | 0, s => [s]
  | k + 1, s =>
    match cutScan sep s with
    | none => [s]
    | some (before, after) => before :: splitScan sep k after

/-- The pieces of `strings.SplitN` for the empty separator: one character
each, the last piece taking what is left once `k` are cut off. -/
def explode : Nat → Str → List Str
  | _, [] => []
  | 0, c :: cs => [c :: cs]
  | _ + 1, [c] => [[c]]
  | k + 1, c :: cs => [c] :: explode k cs

/-- Model of `strings.SplitN(s, sep, n)`: at most `n` pieces of `s` between
instances of `sep`, the last piece being the unsplit remainder; all pieces
when `n < 0`, none when `n = 0`. -/
def SplitN (s sep : Str) (n : Int) : List Str :=
  if n = 0 then []
  else
    let k := if n < 0 then s.length else n.toNat - 1
    if sep = [] then explode k s else splitScan sep k s

/-- The errors of `strconv`: `ErrSyntax` and `ErrRange`. -/
inductive NumError where
  | ErrSyntax
  | ErrRange
  deriving DecidableEq

/-- The value of a decimal digit. -/
def digitValue (c : Char) : Option Nat :=
  if '0'.toNat ≤ c.toNat ∧ c.toNat ≤ '9'.toNat then some (c.toNat - '0'.toNat) else none

/-- The scan of `strconv.ParseUint` in base 10 for 64 bits, after the value
`acc` read so far: a character that is no digit ends it with `ErrSyntax`, a
digit that takes the value above `2 ^ 64 - 1` ends it with `ErrRange`,
whichever comes first. -/
def digitsValue : Nat → Str → Except NumError Nat
  | acc, [] => .ok acc
  | acc, c :: cs =>
    match digitValue c with
    | none => .error .ErrSyntax
    | some d =>
      if acc * 10 + d > 2 ^ 64 - 1 then .error .ErrRange
      else digitsValue (acc * 10 + d) cs

/-- Model of `strconv.Atoi(s)` with a 64-bit `int`: an optional sign followed
by one or more decimal digits, of a value that fits. -/
def Atoi (s : Str) : Except NumError Int :=
  let neg := s.head? = some '-'
  let digits := if s.head? = some '-' ∨ s.head? = some '+' then s.tail else s
  if digits = [] then .error .ErrSyntax
  else
    match digitsValue 0 digits with
    | .error err => .error err
    | .ok n =>
      if neg then (if n ≤ 2 ^ 63 then .ok (-(n : Int)) else .error .ErrRange)
      else (if n < 2 ^ 63 then .ok (n : Int) else .error .ErrRange)

/-- The collaborators of `getOCBinaryName`: `semver.New`, which panics on a
version it cannot parse (`none`), and `rhel.ForSOVersion`. -/
structure RhelResolver (σ : Type) where
  New : Str → Option σ
  ForSOVersion : σ → Except String Str

/-- The errors `getOCBinaryName` returns, one for each `fmt.Errorf`. -/
inductive OCBinaryError where
  | invalidVersion (ocpVersion : Str)
  | minorNotInt (ocpVersion : Str) (err : NumError)
  | rhelVersion (err : String)
  deriving DecidableEq

/-- How a call of `getOCBinaryName` ends: with a name and a nil error, with an
error, or in the panic of `semver.New`. -/
inductive OCBinaryResult where
  | name (s : Str)
  | error (err : OCBinaryError)
  | panic
  deriving DecidableEq

/-- The function `getOCBinaryName`. -/
def getOCBinaryName {σ : Type} (rh : RhelResolver σ) (metadata : Metadata) : OCBinaryResult :=
  let ocpVersion := metadata.Requirements.OcpVersion.Min
  let parts := SplitN ocpVersion ['.'] 2
  if parts.length ≠ 2 then .error (.invalidVersion ocpVersion)
  else
    match Atoi (parts.getD 1 []) with
    | .error err => .error (.minorNotInt ocpVersion err)
    | .ok minor =>
      if minor ≤ 14 then .name "oc".toList
      else
        match rh.New metadata.Project.Version with
        | none => .panic
        | some soVersion =>
          match rh.ForSOVersion soVersion with
          | .error err => .error (.rhelVersion err)
          | .ok rhelVersion => .name ("oc.rhel".toList ++ rhelVersion)

/-- A resolver that knows the project versions `1.33.0` (RHEL 8) and `1.36.0`
(RHEL 9), has no RHEL version for `1.0.0`, and cannot parse anything else. -/
def demoResolver : RhelResolver Str where
  New := fun v =>
    if v = "1.33.0".toList ∨ v = "1.36.0".toList ∨ v = "1.0.0".toList then some v else none
  ForSOVersion := fun v =>
    if v = "1.33.0".toList then .ok ['8']
    else if v = "1.36.0".toList then .ok ['9']
    else .error "no RHEL version"

/-- Metadata with the minimum OCP version `ocp` and the project version `v`. -/
def metadataFor (ocp v : Str) : Metadata where
  Project := ⟨"knative-demo".toList, "knative-v1".toList, v⟩
  Requirements := ⟨⟨ocp⟩⟩

/-! ## A small network for running the merge -/

/-- The lines of a text. -/
def splitLines : Str → List Str
  | [] => [[]]
  | c :: cs =>
    if c = '\n' then [] :: splitLines cs
    else match splitLines cs with
      | [] => [[c]]
      | line :: lines => (c :: line) :: lines

/-- A decoder for flat YAML documents with one `key: value` pair on each line;
the empty document decodes to the empty map, as with `yaml.Unmarshal`. -/
def decodeFlatYaml (content : Str) : Except String Mapping :=
  (splitLines content).foldr
    (fun line acc =>
      if line = [] then acc
      else match cutScan ": ".toList line, acc with
        | some (k, v), .ok m => .ok (mapSet m k v)
        | none, .ok _ => .error "cannot unmarshal line into map[string]string"
        | _, .error e => .error e)
    (.ok [])

/-- A network with three repositories: `serving` and `eventing` answer 200 with
a mapping each (both define `pkg/b`, with different images), `broken` answers
400 with an empty body, `gone` answers 404; any other host cannot be reached.
The URL format is taken as `<urlFmt>%s/%s`. -/
def demoNet : Net where
  Sprintf := fun urlFmt r branch => urlFmt ++ r ++ ['/'] ++ branch
  Get := fun url =>
    if url = "u/serving/release-v1".toList then
      .ok ⟨200, .ok "pkg/a: remote-a\npkg/b: serving-b".toList⟩
    else if url = "u/eventing/release-v1".toList then
      .ok ⟨200, .ok "pkg/b: eventing-b\npkg/c: eventing-c".toList⟩
    else if url = "u/broken/release-v1".toList then .ok ⟨400, .ok []⟩
    else if url = "u/gone/release-v1".toList then .ok ⟨404, .ok "404: Not Found".toList⟩
    else .error "no such host"
  Unmarshal := decodeFlatYaml

/-- The mappings that `demoNet` serves for `serving` and `eventing`, as decoded. -/
def demoRemote (r : Str) : Mapping :=
  if r = "serving".toList then
    [("pkg/b".toList, "serving-b".toList), ("pkg/a".toList, "remote-a".toList)]
  else if r = "eventing".toList then
    [("pkg/c".toList, "eventing-c".toList), ("pkg/b".toList, "eventing-b".toList)]
  else []

/-- Metadata of a project tagged `knative-v1`. -/
def demoMetadata : Metadata where
  Project := ⟨"knative-demo".toList, "knative-v1".toList, "1.0.0".toList⟩
  Requirements := ⟨⟨"4.14".toList⟩⟩

/-! ## Cleaned paths, by segments -/

/-- A segment that `filepath.Clean` keeps as a name. -/
def isName (seg : Str) : Prop := seg ≠ [] ∧ seg ≠ ['.'] ∧ seg ≠ ['.', '.']

/-- A segment on the stack of `filepath.Clean`: not empty, not `.`, and without
separator. -/
def isKept (seg : Str) : Prop := seg ≠ [] ∧ seg ≠ ['.'] ∧ ∀ c ∈ seg, c ≠ '/'

/-- The text `filepath.Clean` makes of the segments it has kept. -/
def renderClean (rooted : Bool) (segs : List Str) : Str :=
  if rooted then '/' :: stringsJoin segs ['/']
  else if stringsJoin segs ['/'] = [] then ['.'] else stringsJoin segs ['/']

/-- The names of an entry-point path: none for `.`, its segments otherwise. -/
def entrySegs (p : Str) : List Str := if p = ['.'] then [] else splitSep p

/-! ## The name derivation in the words of the specification -/

/-- The sub-path as the specification words it: what follows the first segment
equal to the marker `cmd` that has further segments after it, and the whole
path when there is no such segment. -/
def subPathBySegments (path : Str) : Str :=
  match (splitSep path).dropWhile (fun seg => seg ≠ "cmd".toList) with
  | _ :: next :: rest => stringsJoin (next :: rest) ['/']
  | _ => path

/-- The last path segment, trailing separators set aside. -/
def lastSegment (path : Str) : Str :=
  (splitSep (path.rdropWhile (fun c => c == '/'))).getLastD []

/-- The capital letters of ASCII. -/
def asciiCapitals : Str := "ABCDEFGHIJKLMNOPQRSTUVWXYZ".toList

/-- The small letters of ASCII. -/
def asciiSmalls : Str := "abcdefghijklmnopqrstuvwxyz".toList

/-- The digits of ASCII. -/
def asciiDigits : Str := "0123456789".toList

/-- Lower case of a character: a capital letter of ASCII becomes the small
letter at the same place of the alphabet, any other ASCII character stays, and
a character above ASCII is looked up in the Unicode tables. -/
def lowerCase (U : UnicodeTables) (c : Char) : Char :=
  if c.toNat ≤ 127 then ((asciiCapitals.zip asciiSmalls).lookup c).getD c else U.lower c

/-- Title case of a character: a small letter of ASCII becomes the capital
letter at the same place of the alphabet, any other ASCII character stays, and
a character above ASCII is looked up in the Unicode tables. -/
def titleCase (U : UnicodeTables) (c : Char) : Char :=
  if c.toNat ≤ 127 then ((asciiSmalls.zip asciiCapitals).lookup c).getD c else U.title c

/-- The characters words are made of: letters, digits and the underscore; above
ASCII also every character that is not a space. -/
def isWordChar (U : UnicodeTables) (c : Char) : Bool :=
  if c.toNat ≤ 127 then
    (asciiCapitals ++ asciiSmalls ++ asciiDigits ++ ['_']).contains c
  else U.isLetter c || U.isDigit c || !U.isSpace c

/-- The pieces of a text, each ending right after a character that satisfies `p`. -/
def splitAfter (p : Char → Bool) : Str → List Str
  | [] => []
  | c :: cs =>
    if p c then [c] :: splitAfter p cs
    else match splitAfter p cs with
      | [] => [[c]]
      | w :: ws => (c :: w) :: ws

/-- A piece with its first character in title case. -/
def titleFirst (U : UnicodeTables) : Str → Str
  | [] => []
  | c :: cs => titleCase U c :: cs

/-- Title-casing word by word, a word starting at the start of the text and
after every character that is not a word character: the text in lower case,
the first character of each word then in title case. -/
def titleCaseWords (U : UnicodeTables) (s : Str) : Str :=
  ((splitAfter (fun c => !isWordChar U c) (s.map (lowerCase U))).map (titleFirst U)).flatten

/-- Title-casing word by word, the words being what the spaces separate: the
text in lower case, the first character after each space and the first of the
text then in title case. -/
def titleCaseSpaceWords (U : UnicodeTables) (s : Str) : Str :=
  ((splitAfter (fun c => c == ' ') (s.map (lowerCase U))).map (titleFirst U)).flatten

/-- The dash-case name as the specification words it: every `/` and `_` of the
sub-path by marker segment replaced by `-`, lower-cased. -/
def dashcaseAsStated (U : UnicodeTables) (path : Str) : Str :=
  (subPathBySegments path).map (fun c => lowerCase U (if c = '/' ∨ c = '_' then '-' else c))

/-- The display name as the specification words it: every `/`, `_` and `-` of
the sub-path by marker segment replaced by a space, then title-cased per word,
the words being what the spaces separate. -/
def capitalizeAsStated (U : UnicodeTables) (path : Str) : Str :=
  titleCaseSpaceWords U
    ((subPathBySegments path).map (fun c => if c = '/' ∨ c = '_' ∨ c = '-' then ' ' else c))

end Generate

open Generate

/-! ## The path filter -/

theorem pathFilter_of_exclude {ρ : Type} (matchString : ρ → Str → Bool)
    (includesRegex excludesRegex : List ρ) (path : Str)
    (h : ∃ r ∈ excludesRegex, matchString r path = true) :
    pathFilter matchString includesRegex excludesRegex path = false := by
  have hany : excludesRegex.any (fun r => matchString r path) = true :=
    List.any_eq_true.mpr h
  simp [pathFilter, hany]

theorem contains_nil (path : Str) : contains path [] = true := by
  cases path <;> simp [contains]

theorem walkFn_ok {ρ : Type} (matchString : ρ → Str → Bool)
    (includesRegex excludesRegex : List ρ) (rootDir : Str)
    (packageClause : Str → Except String Str) (mainPackagesPaths paths : List Str)
    (path : Str) (info : FileInfo)
    (h : walkFn matchString includesRegex excludesRegex rootDir packageClause
      mainPackagesPaths path info = .ok paths) :
    paths = mainPackagesPaths ∨
    (pathFilter matchString includesRegex excludesRegex (relPath rootDir path) = true ∧
      paths = mainPackagesPaths.insert (Dir (relPath rootDir path))) := by
  unfold walkFn at h
  by_cases hskip : (info.IsDir || !hasSuffix info.Name ".go".toList) = true
  · rw [if_pos hskip] at h
    exact Or.inl (Except.ok.inj h).symm
  · rw [if_neg hskip] at h
    by_cases hf : pathFilter matchString includesRegex excludesRegex (relPath rootDir path) = true
    · simp only [hf, Bool.not_true, Bool.false_eq_true, if_false] at h
      cases hpk : packageClause (relPath rootDir path) with
      | error e => rw [hpk] at h; cases h
      | ok name =>
        rw [hpk] at h
        by_cases hn : name ≠ "main".toList
        · simp only [hn, ne_eq, not_false_eq_true, if_true] at h
          exact Or.inl (Except.ok.inj h).symm
        · simp only [hn, if_false] at h
          exact Or.inr ⟨hf, (Except.ok.inj h).symm⟩
    · have hf2 : pathFilter matchString includesRegex excludesRegex (relPath rootDir path) =
          false := by simpa using hf
      simp only [hf2, Bool.not_false, if_true] at h
      exact Or.inl (Except.ok.inj h).symm

/-- A walk records a directory only through a visited file that passes the
path filter and lies in that directory. -/
theorem walkFiles_mem {ρ : Type} (matchString : ρ → Str → Bool)
    (includesRegex excludesRegex : List ρ) (rootDir : Str)
    (packageClause : Str → Except String Str) (visits : List (Str × FileInfo))
    (mainPackagesPaths paths : List Str)
    (h : walkFiles matchString includesRegex excludesRegex rootDir packageClause
      mainPackagesPaths visits = .ok paths) (d : Str) (hd : d ∈ paths) :
    d ∈ mainPackagesPaths ∨
    ∃ v ∈ visits,
      pathFilter matchString includesRegex excludesRegex (relPath rootDir v.1) = true ∧
      Dir (relPath rootDir v.1) = d := by
  induction visits generalizing mainPackagesPaths with
  | nil =>
    simp only [walkFiles] at h
    rw [← Except.ok.inj h] at hd
    exact Or.inl hd
  | cons v rest ih =>
    obtain ⟨path, info⟩ := v
    simp only [walkFiles] at h
    cases hw : walkFn matchString includesRegex excludesRegex rootDir packageClause
        mainPackagesPaths path info with
    | error e => rw [hw] at h; cases h
    | ok mid =>
      rw [hw] at h
      rcases ih mid h with hmid | ⟨v, hv, hvf, hvd⟩
      · rcases walkFn_ok matchString includesRegex excludesRegex rootDir packageClause
          mainPackagesPaths mid path info hw with heq | ⟨hf, heq⟩
        · rw [heq] at hmid
          exact Or.inl hmid
        · rw [heq] at hmid
          rcases List.mem_insert_iff.mp hmid with hd2 | hd2
          · exact Or.inr ⟨(path, info), List.mem_cons_self _ _, hf, hd2.symm⟩
          · exact Or.inl hd2
      · exact Or.inr ⟨v, List.mem_cons_of_mem _ hv, hvf, hvd⟩

/-- C1, as stated, fails in its parenthesis: the exclude pattern `gen_` matches
the path `cmd/a/gen_main.go`, which is rejected, and yet its directory `cmd/a`
is recorded as an entry point by the walk, through the file `cmd/a/main.go`
that passes the filter. -/
theorem excluded_path_directory_recorded_counterexample :
    literalMatch "gen_".toList (relPath "/src".toList "/src/cmd/a/gen_main.go".toList) = true ∧
    pathFilter literalMatch ["cmd".toList] ["gen_".toList]
      (relPath "/src".toList "/src/cmd/a/gen_main.go".toList) = false ∧
    Dir (relPath "/src".toList "/src/cmd/a/gen_main.go".toList) = "cmd/a".toList ∧
    walkFiles literalMatch ["cmd".toList] ["gen_".toList] "/src".toList
      (fun _ => .ok "main".toList) []
      [("/src/cmd".toList, ⟨true, "cmd".toList⟩), ("/src/cmd/a".toList, ⟨true, "a".toList⟩),
        ("/src/cmd/a/gen_main.go".toList, ⟨false, "gen_main.go".toList⟩),
        ("/src/cmd/a/main.go".toList, ⟨false, "main.go".toList⟩)] =
      .ok ["cmd/a".toList] := by
  refine ⟨by decide, by decide, by decide, rfl⟩

/-- C1, amended (exclude wins): a path that some exclude pattern matches is
rejected by the path filter, whatever the include patterns are and whether or
not one of them matches; the walk callback then returns without error and
leaves the set of main package paths as it was, so the visit of that path
records no entry point. Over a whole walk, the directory of the path is not
recorded when every visited file of that directory is matched by an exclude
pattern; it can be recorded through another file of the directory. -/
theorem exclude_wins {ρ : Type} (matchString : ρ → Str → Bool)
    (includesRegex excludesRegex : List ρ) (path : Str)
    (h : ∃ r ∈ excludesRegex, matchString r path = true) :
    pathFilter matchString includesRegex excludesRegex path = false ∧
    (∀ (rootDir walked : Str) (info : FileInfo) (packageClause : Str → Except String Str)
      (mainPackagesPaths : List Str), relPath rootDir walked = path →
      walkFn matchString includesRegex excludesRegex rootDir packageClause
        mainPackagesPaths walked info = .ok mainPackagesPaths) ∧
    (∀ (rootDir : Str) (packageClause : Str → Except String Str)
      (visits : List (Str × FileInfo)) (paths : List Str),
      walkFiles matchString includesRegex excludesRegex rootDir packageClause [] visits =
        .ok paths →
      (∀ v ∈ visits, Dir (relPath rootDir v.1) = Dir path →
        ∃ r ∈ excludesRegex, matchString r (relPath rootDir v.1) = true) →
      Dir path ∉ paths) := by
  have hf := pathFilter_of_exclude matchString includesRegex excludesRegex path h
  refine ⟨hf, ?_, ?_⟩
  · intro rootDir walked info packageClause mainPackagesPaths hrel
    subst hrel
    simp [walkFn, hf]
  · intro rootDir packageClause visits paths hwalk hall hmem
    rcases walkFiles_mem matchString includesRegex excludesRegex rootDir packageClause
      visits [] paths hwalk (Dir path) hmem with hnil | ⟨v, hv, hvf, hvd⟩
    · cases hnil
    · have hex := pathFilter_of_exclude matchString includesRegex excludesRegex
        (relPath rootDir v.1) (hall v hv hvd)
      rw [hex] at hvf
      cases hvf

/-- The path `cmd/k8s.io/main.go` is matched by the include pattern `cmd` and by
the exclude pattern `k8s`: it is rejected, visiting it records nothing, and a
walk over it and `cmd/b/main.go` records `cmd/b` only. -/
theorem exclude_wins_witness :
    (∃ r ∈ ["k8s".toList], literalMatch r "cmd/k8s.io/main.go".toList = true) ∧
    literalMatch "cmd".toList "cmd/k8s.io/main.go".toList = true ∧
    pathFilter literalMatch ["cmd".toList] ["k8s".toList] "cmd/k8s.io/main.go".toList = false ∧
    walkFn literalMatch ["cmd".toList] ["k8s".toList] "/src".toList
      (fun _ => .ok "main".toList) [] "/src/cmd/k8s.io/main.go".toList
      ⟨false, "main.go".toList⟩ = .ok [] ∧
    walkFiles literalMatch ["cmd".toList] ["k8s".toList] "/src".toList
      (fun _ => .ok "main".toList) []
      [("/src/cmd/b/main.go".toList, ⟨false, "main.go".toList⟩),
        ("/src/cmd/k8s.io/main.go".toList, ⟨false, "main.go".toList⟩)] =
      .ok ["cmd/b".toList] ∧
    Dir "cmd/k8s.io/main.go".toList ∉ ["cmd/b".toList] :=
  have h : ∃ r ∈ ["k8s".toList], literalMatch r "cmd/k8s.io/main.go".toList = true :=
    ⟨"k8s".toList, by simp, by decide⟩
  ⟨h, by decide,
    (exclude_wins literalMatch ["cmd".toList] ["k8s".toList] "cmd/k8s.io/main.go".toList h).1,
    (exclude_wins literalMatch ["cmd".toList] ["k8s".toList] "cmd/k8s.io/main.go".toList h).2.1
      "/src".toList "/src/cmd/k8s.io/main.go".toList ⟨false, "main.go".toList⟩
      (fun _ => .ok "main".toList) [] (by decide),
    rfl,
    (exclude_wins literalMatch ["cmd".toList] ["k8s".toList] "cmd/k8s.io/main.go".toList h).2.2
      "/src".toList (fun _ => .ok "main".toList)
      [("/src/cmd/b/main.go".toList, ⟨false, "main.go".toList⟩),
        ("/src/cmd/k8s.io/main.go".toList, ⟨false, "main.go".toList⟩)]
      ["cmd/b".toList] rfl
      (by
        intro v hv hd
        rcases List.mem_cons.mp hv with rfl | hv
        · exact absurd hd (by decide)
        · rcases List.mem_cons.mp hv with rfl | hv
          · exact ⟨"k8s".toList, List.mem_cons_self _ _, by decide⟩
          · cases hv)⟩

/-- C2: with no include patterns the filter decides as it does with an include
list that holds a pattern matching every path, and it accepts a path exactly
when no exclude pattern matches it. -/
theorem empty_includes_match_all {ρ : Type} (matchString : ρ → Str → Bool)
    (includesRegex excludesRegex : List ρ) (path : Str)
    (h : ∃ r ∈ includesRegex, ∀ p, matchString r p = true) :
    pathFilter matchString [] excludesRegex path =
      pathFilter matchString includesRegex excludesRegex path ∧
    (pathFilter matchString [] excludesRegex path = true ↔
      ∀ r ∈ excludesRegex, matchString r path = false) := by
  obtain ⟨r, hr, hall⟩ := h
  have hlen : includesRegex.length > 0 := List.length_pos_of_mem hr
  have hany : includesRegex.any (fun r => matchString r path) = true :=
    List.any_eq_true.mpr ⟨r, hr, hall path⟩
  constructor
  · simp [pathFilter, hlen, hany]
  · simp [pathFilter]

/-- The empty pattern matches every path; the include list `["", "cmd"]` and
the empty include list decide alike on `pkg/a/main.go` under the exclude `k8s`. -/
theorem empty_includes_match_all_witness :
    (∃ r ∈ ([[], "cmd".toList] : List Str), ∀ p, literalMatch r p = true) ∧
    pathFilter literalMatch [] ["k8s".toList] "pkg/a/main.go".toList =
      pathFilter literalMatch [[], "cmd".toList] ["k8s".toList] "pkg/a/main.go".toList ∧
    pathFilter literalMatch [] ["k8s".toList] "pkg/a/main.go".toList = true :=
  have h : ∃ r ∈ ([[], "cmd".toList] : List Str), ∀ p, literalMatch r p = true :=
    ⟨[], by simp, fun p => contains_nil p⟩
  ⟨h,
    (empty_includes_match_all literalMatch [[], "cmd".toList] ["k8s".toList]
      "pkg/a/main.go".toList h).1,
    by decide⟩

/-- C10, as stated, fails: `cmd/a/main.go` and `cmd/a/gen_main.go` lie in the
same directory `cmd/a`, yet under the exclude pattern `gen_` the first passes
the filter and the second does not; visiting the first records `cmd/a`,
visiting the second alone records nothing. -/
theorem filter_on_directory_counterexample :
    Dir (relPath "/src".toList "/src/cmd/a/main.go".toList) = "cmd/a".toList ∧
    Dir (relPath "/src".toList "/src/cmd/a/gen_main.go".toList) = "cmd/a".toList ∧
    literalMatch "gen_".toList "cmd/a".toList = false ∧
    pathFilter literalMatch ["cmd".toList] ["gen_".toList]
      (relPath "/src".toList "/src/cmd/a/main.go".toList) = true ∧
    pathFilter literalMatch ["cmd".toList] ["gen_".toList]
      (relPath "/src".toList "/src/cmd/a/gen_main.go".toList) = false ∧
    walkFn literalMatch ["cmd".toList] ["gen_".toList] "/src".toList
      (fun _ => .ok "main".toList) [] "/src/cmd/a/main.go".toList
      ⟨false, "main.go".toList⟩ = .ok ["cmd/a".toList] ∧
    walkFn literalMatch ["cmd".toList] ["gen_".toList] "/src".toList
      (fun _ => .ok "main".toList) [] "/src/cmd/a/gen_main.go".toList
      ⟨false, "gen_main.go".toList⟩ = .ok [] := by
  refine ⟨by decide, by decide, by decide, by decide, by decide, rfl, rfl⟩

/-- C10, amended: the filter is applied to the path of the source file itself,
relative to the root. The outcome of visiting a file depends on the patterns
only through whether they match that file path: two matchers that agree on it
give the same outcome, however they differ elsewhere, the containing directory
included. -/
theorem filter_on_file_path {ρ : Type} (matchString matchString₂ : ρ → Str → Bool)
    (includesRegex excludesRegex : List ρ) (rootDir : Str)
    (packageClause : Str → Except String Str) (mainPackagesPaths : List Str)
    (path : Str) (info : FileInfo)
    (h : ∀ r, matchString r (relPath rootDir path) = matchString₂ r (relPath rootDir path)) :
    pathFilter matchString includesRegex excludesRegex (relPath rootDir path) =
      pathFilter matchString₂ includesRegex excludesRegex (relPath rootDir path) ∧
    walkFn matchString includesRegex excludesRegex rootDir packageClause
        mainPackagesPaths path info =
      walkFn matchString₂ includesRegex excludesRegex rootDir packageClause
        mainPackagesPaths path info := by
  have hf : pathFilter matchString includesRegex excludesRegex (relPath rootDir path) =
      pathFilter matchString₂ includesRegex excludesRegex (relPath rootDir path) := by
    simp only [pathFilter, h]
  exact ⟨hf, by simp only [walkFn, hf]⟩

/-- A matcher that agrees with `literalMatch` on `cmd/a/gen_main.go` and matches
nothing else, the directory `cmd/a` included, rejects that file all the same. -/
theorem filter_on_file_path_witness :
    (∀ r, literalMatch r (relPath "/src".toList "/src/cmd/a/gen_main.go".toList) =
      (fun r p => p = "cmd/a/gen_main.go".toList && literalMatch r p) r
        (relPath "/src".toList "/src/cmd/a/gen_main.go".toList)) ∧
    walkFn literalMatch ["cmd".toList] ["gen_".toList] "/src".toList
        (fun _ => .ok "main".toList) [] "/src/cmd/a/gen_main.go".toList
        ⟨false, "gen_main.go".toList⟩ =
      walkFn (fun r p => p = "cmd/a/gen_main.go".toList && literalMatch r p)
        ["cmd".toList] ["gen_".toList] "/src".toList
        (fun _ => .ok "main".toList) [] "/src/cmd/a/gen_main.go".toList
        ⟨false, "gen_main.go".toList⟩ :=
  have hrel : relPath "/src".toList "/src/cmd/a/gen_main.go".toList =
      "cmd/a/gen_main.go".toList := by decide
  have h : ∀ r, literalMatch r (relPath "/src".toList "/src/cmd/a/gen_main.go".toList) =
      (fun r p => p = "cmd/a/gen_main.go".toList && literalMatch r p) r
        (relPath "/src".toList "/src/cmd/a/gen_main.go".toList) := by
    intro r; rw [hrel]; simp
  ⟨h, (filter_on_file_path literalMatch _ ["cmd".toList] ["gen_".toList] "/src".toList
    (fun _ => .ok "main".toList) [] "/src/cmd/a/gen_main.go".toList
    ⟨false, "gen_main.go".toList⟩ h).2⟩

/-! ## The merge of remote image mappings -/

theorem mapGet_cons (k₀ v₀ : Str) (rest : Mapping) (k : Str) :
    mapGet ((k₀, v₀) :: rest) k = if k = k₀ then some v₀ else mapGet rest k := by
  unfold mapGet
  by_cases h : k = k₀
  · subst h; simp [List.lookup]
  · have hb : (k == k₀) = false := by simpa using h
    simp [List.lookup, hb, h]

theorem mapGet_mapSet (m : Mapping) (k v k₁ : Str) :
    mapGet (mapSet m k v) k₁ = if k₁ = k then some v else mapGet m k₁ := by
  induction m with
  | nil => simp only [mapSet, mapGet_cons]
  | cons e rest ih =>
    obtain ⟨k₀, v₀⟩ := e
    unfold mapSet
    by_cases h0 : k₀ = k
    · subst h0
      simp only [if_true, mapGet_cons]
      by_cases h1 : k₁ = k₀ <;> simp [h1]
    · simp only [h0, if_false, mapGet_cons, ih]
      by_cases h1 : k₁ = k
      · subst h1
        have : ¬ k₁ = k₀ := fun e => h0 e.symm
        simp [this]
      · simp [h1]

/-- After the inner loop a key holds its former value if it had one, and
otherwise the value of its first entry in `images`, if any. -/
theorem mapGet_mergeImages (images : List (Str × Str)) (mapping : Mapping) (k : Str) :
    mapGet (mergeImages mapping images) k =
      (mapGet mapping k).orElse (fun _ => mapGet images k) := by
  induction images generalizing mapping with
  | nil =>
    simp only [mergeImages]
    cases h : mapGet mapping k <;> rfl
  | cons e rest ih =>
    obtain ⟨k₀, v₀⟩ := e
    unfold mergeImages
    by_cases hk : k = k₀
    · subst hk
      cases hm : mapGet mapping k with
      | none => simp [hm, ih, mapGet_mapSet, mapGet_cons]
      | some x => simp [hm, ih]
    · cases hm : mapGet mapping k₀ with
      | none => simp [ih, mapGet_mapSet, mapGet_cons, hk]
      | some x => simp [ih, mapGet_cons, hk]

theorem mergeRepositories_keeps (net : Net) (branch urlFmt : Str) (repositories : List Str)
    (mapping : Mapping) (k v : Str) (h : mapGet mapping k = some v) :
    mapGet (mergeRepositories net branch urlFmt mapping repositories).1 k = some v := by
  induction repositories generalizing mapping with
  | nil => simpa [mergeRepositories] using h
  | cons r rs ih =>
    unfold mergeRepositories
    cases hd : downloadImagesFrom net r branch urlFmt with
    | error err => simpa using h
    | ok images =>
      simp only
      apply ih
      rw [mapGet_mergeImages, h]
      rfl

theorem mergeRepositories_all_ok (net : Net) (branch urlFmt : Str) (remote : Str → Mapping)
    (repositories : List Str) (mapping : Mapping)
    (h : ∀ r ∈ repositories, downloadImagesFrom net r branch urlFmt = .ok (remote r)) :
    (mergeRepositories net branch urlFmt mapping repositories).2 = none ∧
    ∀ k, mapGet (mergeRepositories net branch urlFmt mapping repositories).1 k =
      (mapGet mapping k).orElse
        (fun _ => repositories.findSome? (fun r => mapGet (remote r) k)) := by
  induction repositories generalizing mapping with
  | nil =>
    refine ⟨rfl, fun k => ?_⟩
    cases hm : mapGet mapping k <;> simp [mergeRepositories, hm]
  | cons r rs ih =>
    have hr := h r (List.mem_cons_self r rs)
    have hrs : ∀ r' ∈ rs, downloadImagesFrom net r' branch urlFmt = .ok (remote r') :=
      fun r' hm => h r' (List.mem_cons_of_mem r hm)
    obtain ⟨ih1, ih2⟩ := ih (mergeImages mapping (remote r)) hrs
    unfold mergeRepositories
    rw [hr]
    refine ⟨ih1, fun k => ?_⟩
    simp only
    rw [ih2 k, mapGet_mergeImages]
    cases hm : mapGet mapping k with
    | some x => simp
    | none =>
      cases hrk : mapGet (remote r) k with
      | some y => simp [List.findSome?, hrk]
      | none => simp [List.findSome?, hrk]

/-- C3: the merge never overwrites a local entry. Whatever the repositories are
and whatever the network returns for them (mappings that supply other values
for the key, or an error that stops the loop), a key that held `v` before
`getAdditionalImagesFromMatchingRepositories` holds `v` afterwards. -/
theorem merge_keeps_local_entries (net : Net) (repositories : List Str) (metadata : Metadata)
    (urlFmt : Str) (mapping : Mapping) (k v : Str) (h : mapGet mapping k = some v) :
    mapGet (getAdditionalImagesFromMatchingRepositories net repositories metadata urlFmt
      mapping).1 k = some v := by
  unfold getAdditionalImagesFromMatchingRepositories
  exact mergeRepositories_keeps net _ urlFmt repositories mapping k v h

/-- Both `serving` and `eventing` publish an image for `pkg/b`, which is local
with the value `local-b`: it keeps that value. -/
theorem merge_keeps_local_entries_witness :
    mapGet [("pkg/b".toList, "local-b".toList)] "pkg/b".toList = some "local-b".toList ∧
    mapGet (getAdditionalImagesFromMatchingRepositories demoNet
      ["serving".toList, "eventing".toList] demoMetadata "u/".toList
      [("pkg/b".toList, "local-b".toList)]).1 "pkg/b".toList = some "local-b".toList :=
  ⟨by decide, merge_keeps_local_entries demoNet ["serving".toList, "eventing".toList]
    demoMetadata "u/".toList [("pkg/b".toList, "local-b".toList)] "pkg/b".toList
    "local-b".toList (by decide)⟩

/-- C4: when every fetch succeeds, `remote r` being the mapping fetched for
repository `r`, the merge returns no error, the keys of the mapping afterwards
are the local keys together with the keys of all remote mappings, and a key
that was absent locally holds the value of the first repository, in list order,
whose mapping has the key. -/
theorem merge_additive_first_writer_wins (net : Net) (repositories : List Str)
    (metadata : Metadata) (urlFmt : Str) (mapping : Mapping) (remote : Str → Mapping)
    (h : ∀ r ∈ repositories,
      downloadImagesFrom net r
        (Replace (Replace metadata.Project.Tag "knative".toList "release".toList 1)
          "nightly".toList "next".toList 1) urlFmt = .ok (remote r)) :
    (getAdditionalImagesFromMatchingRepositories net repositories metadata urlFmt
      mapping).2 = none ∧
    (∀ k, (mapGet (getAdditionalImagesFromMatchingRepositories net repositories metadata
        urlFmt mapping).1 k).isSome = true ↔
      ((mapGet mapping k).isSome = true ∨
        ∃ r ∈ repositories, (mapGet (remote r) k).isSome = true)) ∧
    (∀ k, mapGet mapping k = none →
      mapGet (getAdditionalImagesFromMatchingRepositories net repositories metadata
        urlFmt mapping).1 k = repositories.findSome? (fun r => mapGet (remote r) k)) := by
  unfold getAdditionalImagesFromMatchingRepositories
  obtain ⟨h1, h2⟩ := mergeRepositories_all_ok net _ urlFmt remote repositories mapping h
  refine ⟨h1, fun k => ?_, fun k hk => ?_⟩
  · simp only [h2 k]
    cases hm : mapGet mapping k with
    | some x => simp
    | none =>
      simp only [Option.orElse, Option.isSome_none, Bool.false_eq_true, false_or]
      rw [Option.isSome_iff_exists]
      constructor
      · rintro ⟨v, hv⟩
        obtain ⟨r, hr, hrv⟩ := List.exists_of_findSome?_eq_some hv
        exact ⟨r, hr, by simp [hrv]⟩
      · rintro ⟨r, hr, hrv⟩
        cases hf : repositories.findSome? (fun r => mapGet (remote r) k) with
        | some v => exact ⟨v, rfl⟩
        | none =>
          rw [List.findSome?_eq_none_iff] at hf
          simp [hf r hr] at hrv
  · rw [h2 k, hk]; rfl

/-- With `pkg/a` local, `serving` listed before `eventing`, and both fetches
succeeding, `pkg/b` (absent locally, published by both) gets the image that
`serving` gives it. -/
theorem merge_additive_first_writer_wins_witness :
    (∀ r ∈ ["serving".toList, "eventing".toList],
      downloadImagesFrom demoNet r
        (Replace (Replace demoMetadata.Project.Tag "knative".toList "release".toList 1)
          "nightly".toList "next".toList 1) "u/".toList = .ok (demoRemote r)) ∧
    mapGet (getAdditionalImagesFromMatchingRepositories demoNet
      ["serving".toList, "eventing".toList] demoMetadata "u/".toList
      [("pkg/a".toList, "local-a".toList)]).1 "pkg/b".toList = some "serving-b".toList :=
  have h : ∀ r ∈ ["serving".toList, "eventing".toList],
      downloadImagesFrom demoNet r
        (Replace (Replace demoMetadata.Project.Tag "knative".toList "release".toList 1)
          "nightly".toList "next".toList 1) "u/".toList = .ok (demoRemote r) := by
    intro r hr
    rcases List.mem_cons.mp hr with rfl | hr
    · rfl
    · rcases List.mem_cons.mp hr with rfl | hr
      · rfl
      · cases hr
  ⟨h, ((merge_additive_first_writer_wins demoNet ["serving".toList, "eventing".toList]
    demoMetadata "u/".toList [("pkg/a".toList, "local-a".toList)] demoRemote h).2.2
    "pkg/b".toList (by decide)).trans (by decide)⟩

/-! ## Fetching a remote mapping -/

/-- A status code above 400 makes `downloadImagesFrom` return the status error,
whatever the body is. -/
theorem downloadImagesFrom_status_above_400 (net : Net) (r branch urlFmt : Str)
    (response : Response) (hget : net.Get (net.Sprintf urlFmt r branch) = .ok response)
    (hcode : response.StatusCode > 400) :
    downloadImagesFrom net r branch urlFmt =
      .error (.status r (net.Sprintf urlFmt r branch) response.StatusCode) := by
  simp [downloadImagesFrom, hget, hcode]

/-- A response with status code 400 is not rejected: `downloadImagesFrom` goes on
to decode its body, and returns the decoded mapping when that succeeds. -/
theorem downloadImagesFrom_status_400 (net : Net) (r branch urlFmt content : Str)
    (images : Mapping)
    (hget : net.Get (net.Sprintf urlFmt r branch) = .ok ⟨400, .ok content⟩)
    (hyaml : net.Unmarshal content = .ok images) :
    downloadImagesFrom net r branch urlFmt = .ok images := by
  simp [downloadImagesFrom, hget, hyaml]

/-- C6 fails at status 400: the repository `broken` answers `400` with an empty
body; `downloadImagesFrom` returns the empty mapping and no error, and
`getAdditionalImagesFromMatchingRepositories` returns no error either, leaving
the mapping as it was. The repository `gone`, answering 404, is an error. -/
theorem download_accepts_status_400 :
    demoNet.Get (demoNet.Sprintf "u/".toList "broken".toList "release-v1".toList) =
      .ok ⟨400, .ok []⟩ ∧
    downloadImagesFrom demoNet "broken".toList "release-v1".toList "u/".toList = .ok [] ∧
    getAdditionalImagesFromMatchingRepositories demoNet ["broken".toList] demoMetadata
      "u/".toList [("pkg/a".toList, "local-a".toList)] =
      ([("pkg/a".toList, "local-a".toList)], none) ∧
    downloadImagesFrom demoNet "gone".toList "release-v1".toList "u/".toList =
      .error (.status "gone".toList "u/gone/release-v1".toList 404) :=
  ⟨rfl, rfl, rfl, rfl⟩

/-! ## The sub-path -/

theorem cutScan_of_not_contains (sep : Str) (s : Str) (h : contains s sep = false) :
    cutScan sep s = none := by
  induction s with
  | nil =>
    have : sep ≠ [] := by
      intro e; subst e; simp [contains] at h
    simp [cutScan, this]
  | cons c cs ih =>
    simp only [contains, Bool.or_eq_false_iff] at h
    simp [cutScan, h.1, ih h.2]

theorem cmd_not_straddling (before after : Str) (c : Char)
    (h : "cmd/".toList.isPrefixOf (c :: before) = false) :
    "cmd/".toList.isPrefixOf (c :: before ++ "cmd/".toList ++ after) = false := by
  rcases before with _ | ⟨b1, _ | ⟨b2, _ | ⟨b3, rest⟩⟩⟩
  · by_cases hc : c = 'c' <;> simp [List.isPrefixOf, hc]
  · by_cases hc : c = 'c' <;> by_cases hb : b1 = 'm' <;> simp [List.isPrefixOf, hc, hb]
  · by_cases hc : c = 'c' <;> by_cases hb : b1 = 'm' <;> by_cases hd : b2 = 'd' <;>
      simp [List.isPrefixOf, hc, hb, hd]
  · simpa [List.isPrefixOf] using h

theorem cutScan_first_cmd (before after : Str)
    (h : contains before "cmd/".toList = false) :
    cutScan "cmd/".toList (before ++ "cmd/".toList ++ after) = some (before, after) := by
  induction before with
  | nil => simp [cutScan, List.isPrefixOf]
  | cons c bs ih =>
    simp only [contains, Bool.or_eq_false_iff] at h
    have hp := cmd_not_straddling bs after c h.1
    have hcons : c :: bs ++ "cmd/".toList ++ after = c :: (bs ++ "cmd/".toList ++ after) := rfl
    rw [hcons] at hp ⊢
    simp only [cutScan, hp, ih h.2]
    simp

/-- C9, as stated, fails in both directions. In `mycmd/cmd/foo` the first
segment equal to `cmd` is followed by `foo`, but `cmdSubPath` returns `cmd/foo`:
it cuts after the `cmd/` that ends the segment `mycmd`. In `pkg/mycmd/foo` no
segment equals `cmd`, yet `cmdSubPath` returns `foo`, not the full path. -/
theorem cmdSubPath_by_segments_counterexample :
    splitSep "mycmd/cmd/foo".toList = ["mycmd".toList, "cmd".toList, "foo".toList] ∧
    subPathBySegments "mycmd/cmd/foo".toList = "foo".toList ∧
    cmdSubPath "mycmd/cmd/foo".toList = "cmd/foo".toList ∧
    splitSep "pkg/mycmd/foo".toList = ["pkg".toList, "mycmd".toList, "foo".toList] ∧
    subPathBySegments "pkg/mycmd/foo".toList = "pkg/mycmd/foo".toList ∧
    cmdSubPath "pkg/mycmd/foo".toList = "foo".toList := by
  decide

/-- C9, amended: the cut is at the first occurrence of the text `cmd/` in the
path, whether or not it is a whole segment. A path written as `before`, `cmd/`,
`after` with no `cmd/` inside `before` gives `after`; a path that does not
contain the text `cmd/` is returned unmodified. -/
theorem cmdSubPath_first_occurrence (path : Str) :
    (∀ before after, path = before ++ "cmd/".toList ++ after →
      contains before "cmd/".toList = false → cmdSubPath path = after) ∧
    (contains path "cmd/".toList = false → cmdSubPath path = path) := by
  constructor
  · intro before after hp hb
    subst hp
    simp only [cmdSubPath, Cut, cutScan_first_cmd before after hb]
  · intro h
    simp only [cmdSubPath, Cut, cutScan_of_not_contains _ path h]

/-- The first `cmd/` of `openshift/cmd/foo/bar` follows `openshift/`, so the
sub-path is `foo/bar`; `test/test_images/wathola` has no `cmd/` and stays whole. -/
theorem cmdSubPath_first_occurrence_witness :
    contains "openshift/".toList "cmd/".toList = false ∧
    cmdSubPath "openshift/cmd/foo/bar".toList = "foo/bar".toList ∧
    contains "test/test_images/wathola".toList "cmd/".toList = false ∧
    cmdSubPath "test/test_images/wathola".toList = "test/test_images/wathola".toList :=
  ⟨by decide,
    (cmdSubPath_first_occurrence "openshift/cmd/foo/bar".toList).1
      "openshift/".toList "foo/bar".toList (by decide) (by decide),
    by decide,
    (cmdSubPath_first_occurrence "test/test_images/wathola".toList).2 (by decide)⟩

/-! ## Segments of a path -/

theorem splitSep_ne_nil (s : Str) : splitSep s ≠ [] := by
  cases s with
  | nil => simp [splitSep]
  | cons c cs =>
    unfold splitSep
    split
    · simp
    · split <;> simp

theorem splitSep_cons_sep (s : Str) : splitSep ('/' :: s) = [] :: splitSep s := by
  simp [splitSep]

theorem splitSep_cons_other (c : Char) (s seg : Str) (segs : List Str) (hc : c ≠ '/')
    (h : splitSep s = seg :: segs) : splitSep (c :: s) = (c :: seg) :: segs := by
  simp [splitSep, hc, h]

/-- Splitting distributes over a separator. -/
theorem splitSep_append_sep (a b : Str) :
    splitSep (a ++ '/' :: b) = splitSep a ++ splitSep b := by
  induction a with
  | nil => simp [splitSep]
  | cons d ds ih =>
    by_cases hd : d = '/'
    · subst hd
      simp [splitSep_cons_sep, ih]
    · obtain ⟨seg, segs, hs⟩ := List.exists_cons_of_ne_nil (splitSep_ne_nil ds)
      have h1 : splitSep (ds ++ '/' :: b) = seg :: (segs ++ splitSep b) := by
        rw [ih, hs]; rfl
      rw [List.cons_append, splitSep_cons_other d _ _ _ hd h1,
        splitSep_cons_other d _ _ _ hd hs]
      rfl

/-- A text without separator is a single segment. -/
theorem splitSep_of_no_sep (s : Str) (h : ∀ c ∈ s, c ≠ '/') : splitSep s = [s] := by
  induction s with
  | nil => rfl
  | cons d ds ih =>
    have hd : d ≠ '/' := h d (List.mem_cons_self d ds)
    have hds := ih (fun c hc => h c (List.mem_cons_of_mem d hc))
    exact splitSep_cons_other d ds ds [] hd hds

theorem rdropWhile_append_rtakeWhile (p : Char → Bool) (s : Str) :
    s.rdropWhile p ++ s.rtakeWhile p = s := by
  unfold List.rdropWhile List.rtakeWhile
  rw [← List.reverse_append, List.takeWhile_append_dropWhile, List.reverse_reverse]

/-- The last segment of a text is what follows its last separator. -/
theorem getLastD_splitSep (s : Str) :
    (splitSep s).getLastD [] = s.rtakeWhile (fun c => c != '/') := by
  have hdec := rdropWhile_append_rtakeWhile (fun c => c != '/') s
  have htail : ∀ c ∈ s.rtakeWhile (fun c => c != '/'), c ≠ '/' := by
    intro c hc
    have := List.mem_rtakeWhile_imp hc
    simpa using this
  by_cases hd : s.rdropWhile (fun c => c != '/') = []
  · rw [hd, List.nil_append] at hdec
    rw [hdec] at htail ⊢
    rw [splitSep_of_no_sep s htail]
    rfl
  · have hlast := List.rdropWhile_last_not (fun c => c != '/') s hd
    have hl : (s.rdropWhile (fun c => c != '/')).getLast hd = '/' := by
      simpa using hlast
    have hsplit := List.dropLast_append_getLast hd
    rw [hl] at hsplit
    have hs : s = (s.rdropWhile (fun c => c != '/')).dropLast ++
        '/' :: s.rtakeWhile (fun c => c != '/') := by
      conv_lhs => rw [← hdec, ← hsplit]
      simp
    conv_lhs => rw [hs]
    rw [splitSep_append_sep, splitSep_of_no_sep _ htail]
    simp

/-! ## The binary name -/

theorem lastSegment_eq (path : Str) :
    lastSegment path =
      (path.rdropWhile (fun c => c == '/')).rtakeWhile (fun c => c != '/') := by
  unfold lastSegment
  exact getLastD_splitSep _

theorem lastSegment_ne_sep (path : Str) : lastSegment path ≠ ['/'] := by
  rw [lastSegment_eq]
  intro h
  have hm : '/' ∈ (path.rdropWhile (fun c => c == '/')).rtakeWhile (fun c => c != '/') := by
    rw [h]; simp
  have := List.mem_rtakeWhile_imp hm
  simp at this

theorem appFilename_eq (path : Str) :
    appFilename path =
      if lastSegment path = [] ∨ lastSegment path = ['.'] then defaultAppFilename
      else lastSegment path := by
  have hne := lastSegment_ne_sep path
  by_cases hp : path = []
  · subst hp
    decide
  · unfold appFilename Base
    rw [← lastSegment_eq]
    by_cases h0 : lastSegment path = []
    · simp [hp, h0]
    · by_cases h1 : lastSegment path = ['.']
      · simp [hp, h1]
      · simp [hp, h0, h1, hne]

/-- C8, as stated, fails: `cmd/.` is none of `/`, `.` and the empty path, its
last segment is `.`, and `appFilename` returns `main` for it, not the last
segment; likewise for `//`, which has no last segment. -/
theorem appFilename_otherwise_counterexample :
    "cmd/.".toList ≠ "/".toList ∧ "cmd/.".toList ≠ ".".toList ∧ "cmd/.".toList ≠ [] ∧
    splitSep "cmd/.".toList = ["cmd".toList, ".".toList] ∧
    lastSegment "cmd/.".toList = ".".toList ∧
    appFilename "cmd/.".toList = "main".toList ∧
    appFilename "cmd/.".toList ≠ lastSegment "cmd/.".toList ∧
    appFilename "//".toList = "main".toList := by
  decide

/-- C8, amended: for every path `appFilename` returns a non-empty string that
is neither `.` nor the separator. It returns the default name `main` whenever
the last path segment, trailing separators set aside, is empty (the empty path
and paths of separators only) or is `.`, so for `/`, `.` and the empty path in
particular, and it returns that last segment for every other path. -/
theorem appFilename_never_unnamed (path : Str) :
    appFilename path ≠ [] ∧ appFilename path ≠ ['.'] ∧ appFilename path ≠ ['/'] ∧
    appFilename path =
      (if lastSegment path = [] ∨ lastSegment path = ['.'] then "main".toList
        else lastSegment path) ∧
    appFilename "/".toList = "main".toList ∧ appFilename ".".toList = "main".toList ∧
    appFilename [] = "main".toList := by
  have heq := appFilename_eq path
  have hne := lastSegment_ne_sep path
  refine ⟨?_, ?_, ?_, heq, by decide, by decide, by decide⟩
  · rw [heq]
    split
    · decide
    · rename_i h; exact fun e => h (Or.inl e)
  · rw [heq]
    split
    · decide
    · rename_i h; exact fun e => h (Or.inr e)
  · rw [heq]
    split
    · decide
    · exact hne

/-! ## The dash-case and display names -/

theorem replaceScan_single (a b : Char) (s : Str) (k : Nat) (hk : s.length < k) :
    replaceScan [a] [b] k 0 s = s.map (fun c => if c = a then b else c) := by
  induction s generalizing k with
  | nil => cases k <;> simp [replaceScan]
  | cons c cs ih =>
    cases k with
    | zero => simp at hk
    | succ k =>
      have hk2 : cs.length < k := by simpa using hk
      by_cases hc : c = a
      · subst hc
        simp [replaceScan, List.isPrefixOf, ih k hk2]
      · have hc2 : ¬ a = c := fun e => hc e.symm
        have hk3 : cs.length < k + 1 := Nat.lt_succ_of_lt hk2
        simp [replaceScan, List.isPrefixOf, hc, hc2, ih (k + 1) hk3]

/-- Replacing all instances of a one-character text by another one-character
text maps that character and leaves the others. -/
theorem ReplaceAll_single (a b : Char) (s : Str) :
    ReplaceAll s [a] [b] = s.map (fun c => if c = a then b else c) := by
  unfold ReplaceAll Replace
  by_cases hab : a = b
  · subst hab
    have hid : (fun c : Char => if c = a then a else c) = id := by
      funext c; by_cases h : c = a <;> simp [h]
    simp [hid]
  · simp [hab, replaceScan_single a b s (s.length + 1) (Nat.lt_succ_self _)]

set_option maxRecDepth 1000000 in
theorem ascii_lower_table : ∀ n : Fin 128,
    (if 'A'.toNat ≤ (Char.ofNat n.val).toNat ∧ (Char.ofNat n.val).toNat ≤ 'Z'.toNat
      then Char.ofNat ((Char.ofNat n.val).toNat + 32) else Char.ofNat n.val) =
    ((asciiCapitals.zip asciiSmalls).lookup (Char.ofNat n.val)).getD (Char.ofNat n.val) := by
  decide

set_option maxRecDepth 1000000 in
theorem ascii_title_table : ∀ n : Fin 128,
    (if 'a'.toNat ≤ (Char.ofNat n.val).toNat ∧ (Char.ofNat n.val).toNat ≤ 'z'.toNat
      then Char.ofNat ((Char.ofNat n.val).toNat - 32) else Char.ofNat n.val) =
    ((asciiSmalls.zip asciiCapitals).lookup (Char.ofNat n.val)).getD (Char.ofNat n.val) := by
  decide

set_option maxRecDepth 1000000 in
theorem ascii_word_table : ∀ n : Fin 128,
    (if '0'.toNat ≤ (Char.ofNat n.val).toNat ∧ (Char.ofNat n.val).toNat ≤ '9'.toNat then false
      else if 'a'.toNat ≤ (Char.ofNat n.val).toNat ∧ (Char.ofNat n.val).toNat ≤ 'z'.toNat then false
      else if 'A'.toNat ≤ (Char.ofNat n.val).toNat ∧ (Char.ofNat n.val).toNat ≤ 'Z'.toNat then false
      else if Char.ofNat n.val = '_' then false
      else true) =
    !(asciiCapitals ++ asciiSmalls ++ asciiDigits ++ ['_']).contains (Char.ofNat n.val) := by
  decide

theorem char_of_ascii (c : Char) (h : c.toNat ≤ 127) :
    ∃ n : Fin 128, c = Char.ofNat n.val :=
  ⟨⟨c.toNat, by omega⟩, (Char.ofNat_toNat c).symm⟩

theorem unicodeToLower_eq (U : UnicodeTables) (c : Char) :
    unicodeToLower U c = lowerCase U c := by
  unfold unicodeToLower lowerCase
  by_cases h : c.toNat ≤ 127
  · obtain ⟨n, rfl⟩ := char_of_ascii c h
    rw [if_pos h, if_pos h]
    exact ascii_lower_table n
  · rw [if_neg h, if_neg h]

theorem unicodeToTitle_eq (U : UnicodeTables) (c : Char) :
    unicodeToTitle U c = titleCase U c := by
  unfold unicodeToTitle titleCase
  by_cases h : c.toNat ≤ 127
  · obtain ⟨n, rfl⟩ := char_of_ascii c h
    rw [if_pos h, if_pos h]
    exact ascii_title_table n
  · rw [if_neg h, if_neg h]

theorem isSeparator_eq (U : UnicodeTables) (c : Char) :
    isSeparator U c = !isWordChar U c := by
  unfold isSeparator isWordChar
  by_cases h : c.toNat ≤ 127
  · obtain ⟨n, rfl⟩ := char_of_ascii c h
    rw [if_pos h, if_pos h]
    exact ascii_word_table n
  · rw [if_neg h, if_neg h]
    cases U.isLetter c <;> cases U.isDigit c <;> cases U.isSpace c <;> rfl

/-- The text `strings.Title` yields from the character before and the rest, in
terms of words: all words get their first character in title case, except that
the first word is left as it is when the character before is a word character. -/
theorem titleScan_words (U : UnicodeTables) (s : Str) (prev : Char) :
    titleScan U prev s =
      if isWordChar U prev then
        match splitAfter (fun c => !isWordChar U c) s with
        | [] => []
        | w :: ws => w ++ (ws.map (titleFirst U)).flatten
      else ((splitAfter (fun c => !isWordChar U c) s).map (titleFirst U)).flatten := by
  induction s generalizing prev with
  | nil => simp [titleScan, splitAfter]
  | cons c cs ih =>
    have ihc := ih c
    by_cases hc : isWordChar U c = true
    · simp only [hc, if_true] at ihc
      by_cases hp : isWordChar U prev = true
      · cases hw : splitAfter (fun c => !isWordChar U c) cs with
        | nil => simp [titleScan, splitAfter, isSeparator_eq, hc, hp, ihc, hw]
        | cons w ws => simp [titleScan, splitAfter, isSeparator_eq, hc, hp, ihc, hw]
      · cases hw : splitAfter (fun c => !isWordChar U c) cs with
        | nil =>
          simp [titleScan, splitAfter, isSeparator_eq, unicodeToTitle_eq, hc, hp, ihc, hw,
            titleFirst]
        | cons w ws =>
          simp [titleScan, splitAfter, isSeparator_eq, unicodeToTitle_eq, hc, hp, ihc, hw,
            titleFirst]
    · simp only [hc] at ihc
      by_cases hp : isWordChar U prev = true
      · simp [titleScan, splitAfter, isSeparator_eq, hc, hp, ihc]
      · simp [titleScan, splitAfter, isSeparator_eq, unicodeToTitle_eq, hc, hp, ihc, titleFirst]

theorem Title_ToLower_words (U : UnicodeTables) (s : Str) :
    Title U (ToLower U s) = titleCaseWords U s := by
  unfold Title ToLower titleCaseWords
  have hfun : unicodeToLower U = lowerCase U := funext (unicodeToLower_eq U)
  rw [titleScan_words, hfun]
  have : isWordChar U ' ' = false := rfl
  simp [this]

theorem dashcase_of_subPath (U : UnicodeTables) (path : Str) :
    dashcase U path =
      (cmdSubPath path).map (fun c => lowerCase U (if c = '/' ∨ c = '_' then '-' else c)) := by
  unfold dashcase ToLower
  have hfun : unicodeToLower U = lowerCase U := funext (unicodeToLower_eq U)
  simp only [ReplaceAll_single, List.map_map, hfun]
  apply List.map_congr_left
  intro c _
  by_cases h1 : c = '/'
  · subst h1; simp
  · by_cases h2 : c = '_'
    · subst h2; simp
    · simp [h1, h2]

theorem capitalize_of_subPath (U : UnicodeTables) (path : Str) :
    capitalize U path =
      titleCaseWords U
        ((cmdSubPath path).map (fun c => if c = '/' ∨ c = '_' ∨ c = '-' then ' ' else c)) := by
  unfold capitalize
  rw [Title_ToLower_words]
  simp only [ReplaceAll_single, List.map_map]
  congr 1
  apply List.map_congr_left
  intro c _
  by_cases h1 : c = '/'
  · subst h1; simp
  · by_cases h2 : c = '_'
    · subst h2; simp
    · by_cases h3 : c = '-'
      · subst h3; simp
      · simp [h1, h2, h3]

/-- C7, as stated, fails in its general half. `pkg/mycmd/foo` has no segment
`cmd`, so its sub-path by marker segment is the whole path and its dash-case
name would be `pkg-mycmd-foo`; `dashcase` returns `foo`. The sub-path of
`cmd/a.b` is `a.b`, one word between spaces, title-cased `A.b`; `capitalize`
returns `A.B`, since `strings.Title` starts a word after the `.` too. -/
theorem name_derivation_as_stated_counterexample :
    subPathBySegments "pkg/mycmd/foo".toList = "pkg/mycmd/foo".toList ∧
    dashcaseAsStated asciiOnly "pkg/mycmd/foo".toList = "pkg-mycmd-foo".toList ∧
    dashcase asciiOnly "pkg/mycmd/foo".toList = "foo".toList ∧
    subPathBySegments "cmd/a.b".toList = "a.b".toList ∧
    capitalizeAsStated asciiOnly "cmd/a.b".toList = "A.b".toList ∧
    capitalize asciiOnly "cmd/a.b".toList = "A.B".toList := by
  decide

/-- C7, amended: for the entry point `cmd/foo/bar` the display name is
`Foo Bar`, the dash-case name `foo-bar` and the binary filename `bar`, and
`cmd/Foo_Bar/QUX` and `cmd/fooBar/a.b-c` come out as `foo-bar-qux` and
`Foobar A.B C`. For every path, with `sub` what follows the first occurrence of
the text `cmd/` (the whole path when the text does not occur), `dashcase` is
`sub` with each `/` and `_` replaced by `-`, lower-cased, and `capitalize` is
`sub` with each `/`, `_` and `-` replaced by a space, lower-cased, the first
character of each word then in title case, a word starting at the start and
after every character that is no letter, digit or underscore. -/
theorem name_derivation (U : UnicodeTables) (path : Str) :
    capitalize U "cmd/foo/bar".toList = "Foo Bar".toList ∧
    dashcase U "cmd/foo/bar".toList = "foo-bar".toList ∧
    appFilename "cmd/foo/bar".toList = "bar".toList ∧
    dashcase U "cmd/Foo_Bar/QUX".toList = "foo-bar-qux".toList ∧
    capitalize U "cmd/fooBar/a.b-c".toList = "Foobar A.B C".toList ∧
    (∀ before sub, path = before ++ "cmd/".toList ++ sub →
      contains before "cmd/".toList = false →
      dashcase U path =
        sub.map (fun c => lowerCase U (if c = '/' ∨ c = '_' then '-' else c)) ∧
      capitalize U path =
        titleCaseWords U
          (sub.map (fun c => if c = '/' ∨ c = '_' ∨ c = '-' then ' ' else c))) ∧
    (contains path "cmd/".toList = false →
      dashcase U path =
        path.map (fun c => lowerCase U (if c = '/' ∨ c = '_' then '-' else c)) ∧
      capitalize U path =
        titleCaseWords U
          (path.map (fun c => if c = '/' ∨ c = '_' ∨ c = '-' then ' ' else c))) := by
  refine ⟨rfl, rfl, by decide, rfl, rfl, ?_, ?_⟩
  · intro before sub hp hb
    have hsub : cmdSubPath path = sub := by
      subst hp
      simp only [cmdSubPath, Cut, cutScan_first_cmd before sub hb]
    rw [dashcase_of_subPath, capitalize_of_subPath, hsub]
    exact ⟨rfl, rfl⟩
  · intro h
    have hsub : cmdSubPath path = path := by
      simp only [cmdSubPath, Cut, cutScan_of_not_contains _ path h]
    rw [dashcase_of_subPath, capitalize_of_subPath, hsub]
    exact ⟨rfl, rfl⟩

/-- The path `pkg/mycmd/Foo_Bar/x.y` is cut after the `cmd/` inside `mycmd`: its
dash-case name is `foo-bar-x.y` and its display name `Foo Bar X.Y`; the path
`test/Images_v1` has no `cmd/` and gives `test-images-v1` and `Test Images V1`. -/
theorem name_derivation_witness :
    contains "pkg/my".toList "cmd/".toList = false ∧
    dashcase asciiOnly "pkg/mycmd/Foo_Bar/x.y".toList = "foo-bar-x.y".toList ∧
    capitalize asciiOnly "pkg/mycmd/Foo_Bar/x.y".toList = "Foo Bar X.Y".toList ∧
    contains "test/Images_v1".toList "cmd/".toList = false ∧
    dashcase asciiOnly "test/Images_v1".toList = "test-images-v1".toList ∧
    capitalize asciiOnly "test/Images_v1".toList = "Test Images V1".toList :=
  ⟨by decide,
    ((name_derivation asciiOnly "pkg/mycmd/Foo_Bar/x.y".toList).2.2.2.2.2.1
      "pkg/my".toList "Foo_Bar/x.y".toList (by decide) (by decide)).1.trans (by decide),
    ((name_derivation asciiOnly "pkg/mycmd/Foo_Bar/x.y".toList).2.2.2.2.2.1
      "pkg/my".toList "Foo_Bar/x.y".toList (by decide) (by decide)).2.trans (by decide),
    by decide,
    ((name_derivation asciiOnly "test/Images_v1".toList).2.2.2.2.2.2 (by decide)).1.trans
      (by decide),
    ((name_derivation asciiOnly "test/Images_v1".toList).2.2.2.2.2.2 (by decide)).2.trans
      (by decide)⟩

/-! ## Joining and cleaning paths -/

theorem stringsJoin_cons_cons (e e₂ : Str) (es : List Str) (sep : Str) :
    stringsJoin (e :: e₂ :: es) sep = e ++ sep ++ stringsJoin (e₂ :: es) sep := by
  simp [stringsJoin]

theorem splitSep_no_sep (s : Str) : ∀ seg ∈ splitSep s, ∀ c ∈ seg, c ≠ '/' := by
  induction s with
  | nil => simp [splitSep]
  | cons d ds ih =>
    by_cases hd : d = '/'
    · subst hd
      rw [splitSep_cons_sep]
      intro seg hseg
      rcases List.mem_cons.mp hseg with rfl | h
      · simp
      · exact ih seg h
    · obtain ⟨seg₀, segs, hs⟩ := List.exists_cons_of_ne_nil (splitSep_ne_nil ds)
      rw [splitSep_cons_other d ds seg₀ segs hd hs]
      rw [hs] at ih
      intro seg hseg
      rcases List.mem_cons.mp hseg with rfl | h
      · intro c hc
        rcases List.mem_cons.mp hc with rfl | hc2
        · exact hd
        · exact ih seg₀ (List.mem_cons_self _ _) c hc2
      · exact ih seg (List.mem_cons_of_mem _ h)

/-- Joining the segments of a text gives the text back. -/
theorem stringsJoin_splitSep (s : Str) : stringsJoin (splitSep s) ['/'] = s := by
  induction s with
  | nil => rfl
  | cons d ds ih =>
    obtain ⟨seg₀, segs, hs⟩ := List.exists_cons_of_ne_nil (splitSep_ne_nil ds)
    rw [hs] at ih
    by_cases hd : d = '/'
    · subst hd
      rw [splitSep_cons_sep, hs, stringsJoin_cons_cons, ih]
      rfl
    · rw [splitSep_cons_other d ds seg₀ segs hd hs]
      cases segs with
      | nil =>
        simp only [stringsJoin] at ih ⊢
        rw [ih]
      | cons seg₁ rest =>
        rw [stringsJoin_cons_cons] at ih ⊢
        rw [← ih]
        rfl

/-- Splitting a join of separator-free segments gives the segments back. -/
theorem splitSep_stringsJoin (segs : List Str) (hne : segs ≠ [])
    (h : ∀ seg ∈ segs, ∀ c ∈ seg, c ≠ '/') : splitSep (stringsJoin segs ['/']) = segs := by
  induction segs with
  | nil => exact absurd rfl hne
  | cons e es ih =>
    have he := h e (List.mem_cons_self e es)
    cases es with
    | nil => simpa [stringsJoin] using splitSep_of_no_sep e he
    | cons e₂ rest =>
      have ih2 := ih (by simp) (fun seg hs => h seg (List.mem_cons_of_mem e hs))
      rw [stringsJoin_cons_cons]
      have : e ++ ['/'] ++ stringsJoin (e₂ :: rest) ['/'] =
          e ++ '/' :: stringsJoin (e₂ :: rest) ['/'] := by simp
      rw [this, splitSep_append_sep, ih2, splitSep_of_no_sep e he]
      rfl

theorem stringsJoin_append (a b : List Str) (ha : a ≠ []) (hb : b ≠ []) :
    stringsJoin (a ++ b) ['/'] = stringsJoin a ['/'] ++ '/' :: stringsJoin b ['/'] := by
  induction a with
  | nil => exact absurd rfl ha
  | cons e es ih =>
    cases es with
    | nil =>
      obtain ⟨b₀, bs, rfl⟩ := List.exists_cons_of_ne_nil hb
      simp [stringsJoin]
    | cons e₂ rest =>
      have ih2 := ih (by simp)
      rw [List.cons_append, List.cons_append, stringsJoin_cons_cons, stringsJoin_cons_cons,
        ← List.cons_append, ih2]
      simp

theorem cleanStep_name (rooted : Bool) (stack : List Str) (seg : Str) (h : isName seg) :
    cleanStep rooted stack seg = seg :: stack := by
  obtain ⟨h0, h1, h2⟩ := h
  simp [cleanStep, h0, h1, h2]

theorem foldl_cleanStep_names (rooted : Bool) (segs : List Str) (stack : List Str)
    (h : ∀ seg ∈ segs, isName seg) :
    segs.foldl (cleanStep rooted) stack = segs.reverse ++ stack := by
  induction segs generalizing stack with
  | nil => rfl
  | cons e es ih =>
    rw [List.foldl_cons, cleanStep_name rooted stack e (h e (List.mem_cons_self e es)),
      ih (e :: stack) (fun seg hs => h seg (List.mem_cons_of_mem e hs))]
    simp

theorem cleanStep_kept (rooted : Bool) (stack : List Str) (seg : Str)
    (hs : ∀ e ∈ stack, isKept e) (hseg : ∀ c ∈ seg, c ≠ '/') :
    ∀ e ∈ cleanStep rooted stack seg, isKept e := by
  unfold cleanStep
  by_cases h0 : seg = [] ∨ seg = ['.']
  · simpa [h0] using hs
  · have hk : isKept seg := ⟨fun e => h0 (Or.inl e), fun e => h0 (Or.inr e), hseg⟩
    rw [if_neg h0]
    by_cases h2 : seg = ['.', '.']
    · rw [if_pos h2]
      cases stack with
      | nil =>
        cases rooted
        · intro e he
          simp only [Bool.false_eq_true, if_false, List.mem_singleton] at he
          rw [he]; exact hk
        · simp
      | cons top rest =>
        by_cases ht : top = ['.', '.']
        · simp only [ht, if_true]
          intro e he
          rcases List.mem_cons.mp he with rfl | he2
          · exact hk
          · exact hs e (by rw [ht]; exact he2)
        · simp only [ht, if_false]
          intro e he
          exact hs e (List.mem_cons_of_mem _ he)
    · rw [if_neg h2]
      intro e he
      rcases List.mem_cons.mp he with rfl | he2
      · exact hk
      · exact hs e he2

theorem foldl_cleanStep_kept (rooted : Bool) (segs : List Str) (stack : List Str)
    (hs : ∀ e ∈ stack, isKept e) (hsegs : ∀ seg ∈ segs, ∀ c ∈ seg, c ≠ '/') :
    ∀ e ∈ segs.foldl (cleanStep rooted) stack, isKept e := by
  induction segs generalizing stack with
  | nil => exact hs
  | cons e es ih =>
    rw [List.foldl_cons]
    exact ih _ (cleanStep_kept rooted stack e hs (hsegs e (List.mem_cons_self e es)))
      (fun seg h => hsegs seg (List.mem_cons_of_mem e h))

theorem Clean_eq_renderClean (path : Str) :
    Clean path = renderClean (decide (path.head? = some '/'))
      ((splitSep path).foldl (cleanStep (decide (path.head? = some '/'))) []).reverse := by
  unfold Clean renderClean
  by_cases h : path.head? = some '/' <;> simp [h]

theorem stringsJoin_eq_nil (segs : List Str) (h : ∀ e ∈ segs, isKept e)
    (hj : stringsJoin segs ['/'] = []) : segs = [] := by
  cases segs with
  | nil => rfl
  | cons e es =>
    have he := (h e (List.mem_cons_self e es)).1
    cases es with
    | nil => exact absurd (by simpa [stringsJoin] using hj) he
    | cons e₂ rest =>
      rw [stringsJoin_cons_cons] at hj
      simp at hj

theorem stringsJoin_injective (a b : List Str) (ha : ∀ e ∈ a, isKept e)
    (hb : ∀ e ∈ b, isKept e) (h : stringsJoin a ['/'] = stringsJoin b ['/']) : a = b := by
  by_cases ha0 : a = []
  · subst ha0
    exact (stringsJoin_eq_nil b hb h.symm).symm
  · by_cases hb0 : b = []
    · subst hb0
      exact stringsJoin_eq_nil a ha h
    · rw [← splitSep_stringsJoin a ha0 (fun e he => (ha e he).2.2),
        ← splitSep_stringsJoin b hb0 (fun e he => (hb e he).2.2), h]

theorem stringsJoin_ne_dot (segs : List Str) (h : ∀ e ∈ segs, isKept e) :
    stringsJoin segs ['/'] ≠ ['.'] := by
  intro hj
  have hne : segs ≠ [] := by
    intro e; subst e; simp [stringsJoin] at hj
  have hs := splitSep_stringsJoin segs hne (fun e he => (h e he).2.2)
  rw [hj] at hs
  have hmem : ['.'] ∈ segs := by
    rw [← hs]; decide
  exact (h _ hmem).2.1 rfl

/-- Two lists of kept segments that `filepath.Clean` renders alike are equal. -/
theorem renderClean_injective (rooted : Bool) (a b : List Str) (ha : ∀ e ∈ a, isKept e)
    (hb : ∀ e ∈ b, isKept e) (h : renderClean rooted a = renderClean rooted b) : a = b := by
  unfold renderClean at h
  cases rooted with
  | true =>
    simp only [if_true, List.cons.injEq, true_and] at h
    exact stringsJoin_injective a b ha hb h
  | false =>
    simp only [Bool.false_eq_true, if_false] at h
    have hda := stringsJoin_ne_dot a ha
    have hdb := stringsJoin_ne_dot b hb
    by_cases ha0 : stringsJoin a ['/'] = []
    · by_cases hb0 : stringsJoin b ['/'] = []
      · exact stringsJoin_injective a b ha hb (ha0.trans hb0.symm)
      · rw [if_pos ha0, if_neg hb0] at h
        exact absurd h.symm hdb
    · by_cases hb0 : stringsJoin b ['/'] = []
      · rw [if_neg ha0, if_pos hb0] at h
        exact absurd h hda
      · rw [if_neg ha0, if_neg hb0] at h
        exact stringsJoin_injective a b ha hb h

theorem isEntryPointPath_cases (p : Str) (h : isEntryPointPath p = true) :
    p = ['.'] ∨ ∀ seg ∈ splitSep p, isName seg := by
  unfold isEntryPointPath at h
  rcases Bool.or_eq_true_iff.mp h with h1 | h2
  · exact Or.inl (by simpa using h1)
  · right
    intro seg hseg
    have := List.all_eq_true.mp h2 seg hseg
    simpa [isName] using this

theorem entrySegs_names (p : Str) (h : isEntryPointPath p = true) :
    ∀ seg ∈ entrySegs p, isName seg := by
  unfold entrySegs
  by_cases hd : p = ['.']
  · simp [hd]
  · rw [if_neg hd]
    rcases isEntryPointPath_cases p h with h1 | h2
    · exact absurd h1 hd
    · exact h2

theorem entrySegs_kept (p : Str) (h : isEntryPointPath p = true) :
    ∀ seg ∈ entrySegs p, isKept seg := by
  intro seg hseg
  have hn := entrySegs_names p h seg hseg
  refine ⟨hn.1, hn.2.1, ?_⟩
  unfold entrySegs at hseg
  by_cases hd : p = ['.']
  · simp [hd] at hseg
  · rw [if_neg hd] at hseg
    exact splitSep_no_sep p seg hseg

theorem entrySegs_injective (p q : Str) (h : entrySegs p = entrySegs q) : p = q := by
  unfold entrySegs at h
  by_cases hpd : p = ['.']
  · by_cases hqd : q = ['.']
    · rw [hpd, hqd]
    · rw [if_pos hpd, if_neg hqd] at h
      exact absurd h.symm (splitSep_ne_nil q)
  · by_cases hqd : q = ['.']
    · rw [if_neg hpd, if_pos hqd] at h
      exact absurd h (splitSep_ne_nil p)
    · rw [if_neg hpd, if_neg hqd] at h
      rw [← stringsJoin_splitSep p, ← stringsJoin_splitSep q, h]

/-- What the segments of an entry-point path add to a stack of `filepath.Clean`. -/
theorem foldl_cleanStep_entry (rooted : Bool) (stack : List Str) (p : Str)
    (h : isEntryPointPath p = true) :
    ((splitSep p).foldl (cleanStep rooted) stack).reverse = stack.reverse ++ entrySegs p := by
  unfold entrySegs
  by_cases hd : p = ['.']
  · subst hd
    simp [splitSep, cleanStep]
  · rw [if_neg hd]
    rcases isEntryPointPath_cases p h with h1 | h2
    · exact absurd h1 hd
    · rw [foldl_cleanStep_names rooted (splitSep p) stack h2]
      simp

theorem entry_not_rooted (p : Str) (h : isEntryPointPath p = true) :
    ¬ p.head? = some '/' := by
  intro hh
  cases p with
  | nil => simp at hh
  | cons c cs =>
    have hc : c = '/' := by simpa using hh
    subst hc
    rcases isEntryPointPath_cases _ h with h1 | h2
    · simp at h1
    · have := h2 [] (by rw [splitSep_cons_sep]; exact List.mem_cons_self _ _)
      exact this.1 rfl

theorem Join_entry_of_ne_nil (modulePath p : Str) (hm : modulePath ≠ [])
    (hp : isEntryPointPath p = true) :
    Join [modulePath, p] = renderClean (decide (modulePath.head? = some '/'))
      (((splitSep modulePath).foldl
        (cleanStep (decide (modulePath.head? = some '/'))) []).reverse ++ entrySegs p) := by
  have hj : Join [modulePath, p] = Clean (modulePath ++ '/' :: p) := by
    simp [Join, hm, stringsJoin]
  have hhead : (modulePath ++ '/' :: p).head? = modulePath.head? := by
    cases modulePath with
    | nil => exact absurd rfl hm
    | cons c cs => rfl
  rw [hj, Clean_eq_renderClean, hhead, splitSep_append_sep, List.foldl_append,
    foldl_cleanStep_entry _ _ p hp]

/-- The join of a module path with an entry-point path: the module path fixes
whether the result is rooted and a list of kept segments, after which the
names of the entry-point path follow. -/
theorem Join_entry (modulePath : Str) :
    ∃ (rooted : Bool) (kept : List Str), (∀ e ∈ kept, isKept e) ∧
      ∀ p, isEntryPointPath p = true →
        Join [modulePath, p] = renderClean rooted (kept ++ entrySegs p) := by
  by_cases hm : modulePath = []
  · subst hm
    refine ⟨false, [], by simp, ?_⟩
    intro p hp
    have hp0 : p ≠ [] := by
      intro e; subst e; revert hp; decide
    have hroot := entry_not_rooted p hp
    have hj : Join [[], p] = Clean p := by
      simp [Join, hp0, stringsJoin]
    rw [hj, Clean_eq_renderClean, foldl_cleanStep_entry _ [] p hp]
    simp [hroot]
  · refine ⟨decide (modulePath.head? = some '/'),
      ((splitSep modulePath).foldl (cleanStep (decide (modulePath.head? = some '/'))) []).reverse,
      ?_, fun p hp => Join_entry_of_ne_nil modulePath p hm hp⟩
    intro e he
    rw [List.mem_reverse] at he
    exact foldl_cleanStep_kept _ (splitSep modulePath) [] (by simp)
      (splitSep_no_sep modulePath) e he

/-- On entry-point paths, joining with a fixed module path is injective. -/
theorem Join_entry_injective (modulePath p q : Str) (hp : isEntryPointPath p = true)
    (hq : isEntryPointPath q = true) (h : Join [modulePath, p] = Join [modulePath, q]) :
    p = q := by
  obtain ⟨rooted, kept, hk, hj⟩ := Join_entry modulePath
  rw [hj p hp, hj q hq] at h
  have hkp : ∀ e ∈ kept ++ entrySegs p, isKept e := by
    intro e he
    rcases List.mem_append.mp he with h1 | h2
    · exact hk e h1
    · exact entrySegs_kept p hp e h2
  have hkq : ∀ e ∈ kept ++ entrySegs q, isKept e := by
    intro e he
    rcases List.mem_append.mp he with h1 | h2
    · exact hk e h1
    · exact entrySegs_kept q hq e h2
  have := renderClean_injective rooted _ _ hkp hkq h
  exact entrySegs_injective p q (List.append_cancel_left this)

/-- A clean relative module path followed by `cmd/z`. -/
theorem Join_module_cmd (modulePath : Str) (hm : isEntryPointPath modulePath = true)
    (hd : modulePath ≠ ['.']) :
    Join [modulePath, "cmd/z".toList] = modulePath ++ "/cmd/z".toList := by
  have hm0 : modulePath ≠ [] := by
    intro e; subst e; revert hm; decide
  have hroot : decide (modulePath.head? = some '/') = false := by
    simpa using entry_not_rooted modulePath hm
  have hsegs : entrySegs modulePath = splitSep modulePath := by
    simp [entrySegs, hd]
  have hz : entrySegs "cmd/z".toList = ["cmd".toList, "z".toList] := by decide
  rw [Join_entry_of_ne_nil modulePath _ hm0 (by decide), hroot,
    foldl_cleanStep_entry false [] modulePath hm, hsegs, hz, List.reverse_nil, List.nil_append]
  unfold renderClean
  rw [stringsJoin_append _ _ (splitSep_ne_nil modulePath) (by simp), stringsJoin_splitSep]
  simp [stringsJoin]

/-! ## Program identity -/

theorem Replace_vendor (rest : Str) :
    Replace ("vendor/".toList ++ rest) "vendor/".toList [] 1 = rest := by
  cases rest <;> simp [Replace, replaceScan, List.isPrefixOf]

theorem vendored_eq (p : Str) (h : hasPrefix p "vendor/".toList = true) :
    ∃ rest, p = "vendor/".toList ++ rest := by
  unfold hasPrefix at h
  obtain ⟨rest, hr⟩ := List.isPrefixOf_iff_prefix.mp h
  exact ⟨rest, hr.symm⟩

/-- C5, as stated, fails: with the module path `github.com/x/y`, the entry
points `vendor/github.com/x/y/cmd/z` and `cmd/z` are distinct and both get the
identity `github.com/x/y/cmd/z`. -/
theorem programIdentity_collision :
    isEntryPointPath "vendor/github.com/x/y/cmd/z".toList = true ∧
    isEntryPointPath "cmd/z".toList = true ∧
    "vendor/github.com/x/y/cmd/z".toList ≠ "cmd/z".toList ∧
    programIdentity "github.com/x/y".toList "vendor/github.com/x/y/cmd/z".toList =
      "github.com/x/y/cmd/z".toList ∧
    programIdentity "github.com/x/y".toList "cmd/z".toList = "github.com/x/y/cmd/z".toList := by
  decide

/-- C5, amended: for a fixed module path, two distinct entry-point paths that
are both under `vendor/`, or both outside it, get distinct identity keys. The
path `vendor/github.com/x/y` gets the identity `github.com/x/y`, and `cmd/z`
gets the module path followed by `/cmd/z` when the module path is a clean
relative path. -/
theorem programIdentity_unique (modulePath p q : Str)
    (hp : isEntryPointPath p = true) (hq : isEntryPointPath q = true)
    (hv : hasPrefix p "vendor/".toList = hasPrefix q "vendor/".toList) (hne : p ≠ q) :
    programIdentity modulePath p ≠ programIdentity modulePath q ∧
    programIdentity modulePath "vendor/github.com/x/y".toList = "github.com/x/y".toList ∧
    (isEntryPointPath modulePath = true → modulePath ≠ ['.'] →
      programIdentity modulePath "cmd/z".toList = modulePath ++ "/cmd/z".toList) := by
  refine ⟨?_, rfl, ?_⟩
  · intro h
    unfold programIdentity at h
    by_cases hvp : hasPrefix p "vendor/".toList = true
    · have hvq : hasPrefix q "vendor/".toList = true := by rw [← hv]; exact hvp
      obtain ⟨rp, rfl⟩ := vendored_eq p hvp
      obtain ⟨rq, rfl⟩ := vendored_eq q hvq
      rw [if_pos hvp, if_pos hvq, Replace_vendor, Replace_vendor] at h
      exact hne (by rw [h])
    · have hvq : ¬ hasPrefix q "vendor/".toList = true := by rw [← hv]; exact hvp
      rw [if_neg hvp, if_neg hvq] at h
      exact hne (Join_entry_injective modulePath p q hp hq h)
  · intro hm hd
    have hnv : hasPrefix "cmd/z".toList "vendor/".toList = false := by decide
    unfold programIdentity
    rw [hnv]
    exact Join_module_cmd modulePath hm hd

/-- The entry points `cmd/z` and `cmd/y` of the module `github.com/x/y`, both
outside `vendor/`, get different identities. -/
theorem programIdentity_unique_witness :
    programIdentity "github.com/x/y".toList "cmd/z".toList ≠
      programIdentity "github.com/x/y".toList "cmd/y".toList ∧
    programIdentity "github.com/x/y".toList "cmd/z".toList = "github.com/x/y/cmd/z".toList :=
  ⟨(programIdentity_unique "github.com/x/y".toList "cmd/z".toList "cmd/y".toList
      (by decide) (by decide) (by decide) (by decide)).1,
    (programIdentity_unique "github.com/x/y".toList "cmd/z".toList "cmd/y".toList
      (by decide) (by decide) (by decide) (by decide)).2.2 (by decide) (by decide)⟩

/-! ## The name of the `oc` binary -/

theorem cutScan_first_dot (major rest : Str) (h : '.' ∉ major) :
    cutScan ['.'] (major ++ '.' :: rest) = some (major, rest) := by
  induction major with
  | nil => simp [cutScan, List.isPrefixOf]
  | cons c cs ih =>
    have hc : ¬ '.' = c := fun e => h (by rw [e]; exact List.mem_cons_self _ _)
    have hcs : '.' ∉ cs := fun hm => h (List.mem_cons_of_mem c hm)
    simp [cutScan, List.isPrefixOf, hc, ih hcs]

theorem cutScan_no_dot (s : Str) (h : '.' ∉ s) : cutScan ['.'] s = none := by
  induction s with
  | nil => simp [cutScan]
  | cons c cs ih =>
    have hc : ¬ '.' = c := fun e => h (by rw [e]; exact List.mem_cons_self _ _)
    have hcs : '.' ∉ cs := fun hm => h (List.mem_cons_of_mem c hm)
    simp [cutScan, List.isPrefixOf, hc, ih hcs]

/-- Splitting in two at the first `.`: the text before it and all that follows. -/
theorem SplitN_first_dot (major rest : Str) (h : '.' ∉ major) :
    SplitN (major ++ '.' :: rest) ['.'] 2 = [major, rest] := by
  simp [SplitN, splitScan, cutScan_first_dot major rest h]

/-- A text without `.` is not split. -/
theorem SplitN_no_dot (s : Str) (h : '.' ∉ s) : SplitN s ['.'] 2 = [s] := by
  simp [SplitN, splitScan, cutScan_no_dot s h]

/-- C11: `getOCBinaryName` branches on the minor of the minimum OCP version
between 14 and 15. For a minimum version made of a major without `.`, a `.`
and a minor text that `strconv.Atoi` converts to the integer `minor`, it
returns `oc` and no error when `minor ≤ 14`, whatever the project version is,
and when `15 ≤ minor` and the RHEL version of the project version resolves to
`r` it returns `oc.rhel` followed by `r`. For a minimum version without `.`,
and for one whose text after the first `.` is not converted by `strconv.Atoi`,
it returns an error. -/
theorem getOCBinaryName_boundary {σ : Type} (rh : RhelResolver σ) (metadata : Metadata) :
    (∀ (major minorText : Str) (minor : Int),
      metadata.Requirements.OcpVersion.Min = major ++ '.' :: minorText → '.' ∉ major →
      Atoi minorText = .ok minor →
      (minor ≤ 14 → getOCBinaryName rh metadata = .name "oc".toList) ∧
      (15 ≤ minor → ∀ (soVersion : σ) (r : Str),
        rh.New metadata.Project.Version = some soVersion →
        rh.ForSOVersion soVersion = .ok r →
        getOCBinaryName rh metadata = .name ("oc.rhel".toList ++ r))) ∧
    ('.' ∉ metadata.Requirements.OcpVersion.Min →
      getOCBinaryName rh metadata =
        .error (.invalidVersion metadata.Requirements.OcpVersion.Min)) ∧
    (∀ (major rest : Str) (err : NumError),
      metadata.Requirements.OcpVersion.Min = major ++ '.' :: rest → '.' ∉ major →
      Atoi rest = .error err →
      getOCBinaryName rh metadata =
        .error (.minorNotInt metadata.Requirements.OcpVersion.Min err)) := by
  refine ⟨?_, ?_, ?_⟩
  · intro major minorText minor hver hmajor hminor
    have hsplit := SplitN_first_dot major minorText hmajor
    constructor
    · intro hle
      unfold getOCBinaryName
      simp only [hver, hsplit]
      simp [hminor, hle]
    · intro hge soVersion r hnew hrhel
      have hnle : ¬ minor ≤ 14 := by omega
      unfold getOCBinaryName
      simp only [hver, hsplit]
      simp [hminor, hnle, hnew, hrhel]
  · intro hno
    unfold getOCBinaryName
    simp only [SplitN_no_dot _ hno]
    simp
  · intro major rest err hver hmajor herr
    have hsplit := SplitN_first_dot major rest hmajor
    unfold getOCBinaryName
    simp only [hver, hsplit]
    simp [herr]

/-- At the boundary: `4.14` gives `oc` even with a project version that cannot
be parsed, `4.15` with the project version `1.36.0` (RHEL 9) gives `oc.rhel9`,
`4` has no `.` and `4.15.1` has the text `15.1` after the first `.`: both give
an error. -/
theorem getOCBinaryName_boundary_witness :
    getOCBinaryName demoResolver (metadataFor "4.14".toList "bogus".toList) =
      .name "oc".toList ∧
    getOCBinaryName demoResolver (metadataFor "4.15".toList "1.36.0".toList) =
      .name "oc.rhel9".toList ∧
    getOCBinaryName demoResolver (metadataFor "4".toList "1.36.0".toList) =
      .error (.invalidVersion "4".toList) ∧
    getOCBinaryName demoResolver (metadataFor "4.15.1".toList "1.36.0".toList) =
      .error (.minorNotInt "4.15.1".toList .ErrSyntax) :=
  ⟨((getOCBinaryName_boundary demoResolver (metadataFor "4.14".toList "bogus".toList)).1
      "4".toList "14".toList 14 rfl (by decide) rfl).1 (by decide),
    ((getOCBinaryName_boundary demoResolver (metadataFor "4.15".toList "1.36.0".toList)).1
      "4".toList "15".toList 15 rfl (by decide) rfl).2 (by decide) "1.36.0".toList ['9']
      rfl rfl,
    (getOCBinaryName_boundary demoResolver (metadataFor "4".toList "1.36.0".toList)).2.1
      (by decide),
    (getOCBinaryName_boundary demoResolver (metadataFor "4.15.1".toList "1.36.0".toList)).2.2
      "4".toList "15.1".toList .ErrSyntax rfl (by decide) rfl⟩
